import Mathlib

/-
  Verification development for the PackSixPuzzle polycube packing solver
  (src/main.cpp).  The C++ data model and operations are embedded shallowly:
  machine `int` becomes `Int`, `std::vector` becomes `List`, the mutable
  `Box` becomes explicit state passing, and `std::set<Piece>` becomes a
  deduplicating insertion into a `List Piece`.
-/

set_option maxHeartbeats 1600000

/-- PieceID enumeration from src/main.cpp line 9:
`enum PieceID { NONE, H7, O6, F5, Y5, V5, U5, N5, L5, Z5, O4, T4, Z4, L4 }`. -/
inductive PieceID where
  | NONE | H7 | O6 | F5 | Y5 | V5 | U5 | N5 | L5 | Z5 | O4 | T4 | Z4 | L4
  deriving DecidableEq, Repr

/-- Numeric value of a PieceID, as the C++ enum converts to an array index. -/
def PieceID.toNat : PieceID → Nat
  | .NONE => 0 | .H7 => 1 | .O6 => 2 | .F5 => 3 | .Y5 => 4 | .V5 => 5
  | .U5 => 6 | .N5 => 7 | .L5 => 8 | .Z5 => 9 | .O4 => 10 | .T4 => 11
  | .Z4 => 12 | .L4 => 13

/-- The full piece catalog of ids other than the empty marker NONE
(the ids used by main's piece list). -/
def pieceCatalog : List PieceID :=
  [.H7, .O6, .F5, .Y5, .V5, .U5, .N5, .L5, .Z5, .O4, .T4, .Z4, .L4]

/-- A point is an (x, y, z) integer coordinate (struct Point). -/
structure Point where
  x : Int
  y : Int
  z : Int
  deriving DecidableEq, Repr

/-- Strict lexicographic order on points, exactly Point::operator< of the
source: x first, then y, then z. -/
def Point.lt (a b : Point) : Prop :=
  a.x < b.x ∨ (a.x = b.x ∧ a.y < b.y) ∨ (a.x = b.x ∧ a.y = b.y ∧ a.z < b.z)

instance : DecidableRel Point.lt := fun a b => by
  unfold Point.lt; infer_instance

/-- Non-strict companion of Point.lt (what a sort by Point::operator<
establishes between neighbours). -/
def Point.le (a b : Point) : Prop := Point.lt a b ∨ a = b

instance : DecidableRel Point.le := fun a b => by
  unfold Point.le; infer_instance

theorem Point.lt_iff (a b : Point) :
    Point.lt a b ↔
      a.x < b.x ∨ (a.x = b.x ∧ a.y < b.y) ∨ (a.x = b.x ∧ a.y = b.y ∧ a.z < b.z) :=
  Iff.rfl

theorem Point.le_iff (a b : Point) :
    Point.le a b ↔ Point.lt a b ∨ a = b := Iff.rfl

theorem Point.lt_irrefl (a : Point) : ¬ Point.lt a a := by
  simp [Point.lt]

theorem Point.lt_trans {a b c : Point} :
    Point.lt a b → Point.lt b c → Point.lt a c := by
  rcases a with ⟨ax, ay, az⟩; rcases b with ⟨bx, by', bz⟩; rcases c with ⟨cx, cy, cz⟩
  intro h1 h2
  simp only [Point.lt] at h1 h2 ⊢
  rcases h1 with h1 | ⟨e1, h1⟩ | ⟨e1, e1', h1⟩ <;>
    rcases h2 with h2 | ⟨e2, h2⟩ | ⟨e2, e2', h2⟩ <;> omega

theorem Point.lt_total (a b : Point) :
    Point.lt a b ∨ a = b ∨ Point.lt b a := by
  rcases a with ⟨ax, ay, az⟩; rcases b with ⟨bx, by', bz⟩
  simp only [Point.lt, Point.mk.injEq]
  omega

instance : IsTotal Point Point.le where
  total a b := by
    rcases Point.lt_total a b with h | h | h
    · exact Or.inl (Or.inl h)
    · exact Or.inl (Or.inr h)
    · exact Or.inr (Or.inl h)

instance : IsTrans Point Point.le where
  trans a b c hab hbc := by
    rcases hab with hab | rfl
    · rcases hbc with hbc | rfl
      · exact Or.inl (Point.lt_trans hab hbc)
      · exact Or.inl hab
    · exact hbc

instance : IsAntisymm Point Point.le where
  antisymm a b hab hba := by
    rcases hab with hab | rfl
    · rcases hba with hba | rfl
      · exact absurd (Point.lt_trans hab hba) (Point.lt_irrefl a)
      · rfl
    · rfl

instance : IsRefl Point Point.le where
  refl a := Or.inr rfl

/-- Bounding box extents (struct Size). -/
structure Size where
  x : Int
  y : Int
  z : Int
  deriving DecidableEq, Repr

/-- A piece: a PieceID tag, a point sequence and a bounding-box size
(class Piece, fields id_, points_, size_). -/
structure Piece where
  id : PieceID
  points : List Point
  size : Size
  deriving DecidableEq, Repr

/-- The clamped per-axis minimum computed by Piece::normalize: the fold
starts from 0 (`int min_x = 0;`), so it returns min(0, actual minimum). -/
def clampedMin (f : Point → Int) (pts : List Point) : Int :=
  pts.foldl (fun m q => min m (f q)) 0

/-- The bounding-box fold of Piece::normalize: per axis, max over the points
of coordinate + 1, starting from 0. -/
def sizeOfPts (pts : List Point) : Size :=
  ⟨pts.foldl (fun m q => max m (q.x + 1)) 0,
   pts.foldl (fun m q => max m (q.y + 1)) 0,
   pts.foldl (fun m q => max m (q.z + 1)) 0⟩

/-- The point-sequence part of Piece::normalize: translate every point by
the clamped minima, then sort by Point::operator<. -/
def normalizePts (pts : List Point) : List Point :=
  let mx := clampedMin (·.x) pts
  let my := clampedMin (·.y) pts
  let mz := clampedMin (·.z) pts
  List.insertionSort Point.le (pts.map fun q => ⟨q.x - mx, q.y - my, q.z - mz⟩)

/-- Piece::normalize: translate by the clamped minima, recompute the
bounding box from the translated points, and sort the point sequence. -/
def Piece.normalize (p : Piece) : Piece :=
  let pts := normalizePts p.points
  ⟨p.id, pts, sizeOfPts pts⟩

/-- The Piece constructor: store the given points and normalize. -/
def Piece.make (id : PieceID) (pts : List Point) : Piece :=
  Piece.normalize ⟨id, pts, ⟨0, 0, 0⟩⟩

/-- Point image under Piece::rotateZ: (x, y, z) to (y, -x, z). -/
def rotZpt (q : Point) : Point := ⟨q.y, -q.x, q.z⟩

/-- Point image under Piece::rotateX: (x, y, z) to (x, z, -y). -/
def rotXpt (q : Point) : Point := ⟨q.x, q.z, -q.y⟩

/-- Point image under Piece::rotateY: (x, y, z) to (z, y, -x). -/
def rotYpt (q : Point) : Point := ⟨q.z, q.y, -q.x⟩

/-- Piece::rotateZ: map every point through the Z formula, then normalize. -/
def Piece.rotateZ (p : Piece) : Piece :=
  Piece.normalize ⟨p.id, p.points.map rotZpt, p.size⟩

/-- Piece::rotateX: map every point through the X formula, then normalize. -/
def Piece.rotateX (p : Piece) : Piece :=
  Piece.normalize ⟨p.id, p.points.map rotXpt, p.size⟩

/-- Piece::rotateY: map every point through the Y formula, then normalize. -/
def Piece.rotateY (p : Piece) : Piece :=
  Piece.normalize ⟨p.id, p.points.map rotYpt, p.size⟩

/-- A position in the box frame (struct Position). -/
structure Position where
  x : Int
  y : Int
  z : Int
  deriving DecidableEq, Repr

/-- Row-major (x outer, y middle, z inner) strict order on positions,
the order in which Box::findFirstEmptyCell visits cells. -/
def Position.scanLt (a b : Position) : Prop :=
  a.x < b.x ∨ (a.x = b.x ∧ a.y < b.y) ∨ (a.x = b.x ∧ a.y = b.y ∧ a.z < b.z)

instance : DecidableRel Position.scanLt := fun a b => by
  unfold Position.scanLt; infer_instance

/-- A placement record on the Box's stack (struct PiecePos). -/
structure PiecePos where
  piece : Piece
  pos : Position
  deriving DecidableEq, Repr

/-- The Box: dimensions, the flat cell-owner array `data` (linear index
x + y*X + z*X*Y), and the stack of placed pieces, most recent first. -/
structure Box where
  x : Int
  y : Int
  z : Int
  data : List PieceID
  pieces : List PiecePos
  deriving DecidableEq, Repr

/-- The Box constructor: an all-NONE data array of x*y*z cells and an empty
placement stack. -/
def Box.make (x y z : Int) : Box :=
  ⟨x, y, z, List.replicate (x * y * z).toNat PieceID.NONE, []⟩

/-- The linear index x + y*X + z*X*Y into Box::data (as a Nat; every use in
the source is guarded to be in bounds, where the value is non-negative). -/
def Box.index (b : Box) (px py pz : Int) : Nat :=
  (px + py * b.x + pz * b.x * b.y).toNat

/-- Box::isOccupied: the cell owner converted to bool, i.e. whether the
entry differs from NONE. -/
def Box.isOccupied (b : Box) (px py pz : Int) : Bool :=
  b.data.getD (b.index px py pz) PieceID.NONE != PieceID.NONE

/-- Box::setOccupied: write a PieceID into the cell. -/
def Box.setOccupied (b : Box) (px py pz : Int) (id : PieceID) : Box :=
  { b with data := b.data.set (b.index px py pz) id }

/-- Box::clearOccupied: write NONE into the cell. -/
def Box.clearOccupied (b : Box) (px py pz : Int) : Box :=
  { b with data := b.data.set (b.index px py pz) PieceID.NONE }

/-- Box::isOutOfBound: any coordinate below 0 or at/after the extent. -/
def Box.isOutOfBound (b : Box) (pos : Position) : Bool :=
  pos.x < 0 || pos.x ≥ b.x || pos.y < 0 || pos.y ≥ b.y || pos.z < 0 || pos.z ≥ b.z

/-- The translated cells a piece would occupy when anchored at pos. -/
def cellsOf (p : Piece) (pos : Position) : List Position :=
  p.points.map fun q => ⟨pos.x + q.x, pos.y + q.y, pos.z + q.z⟩

/-- The check loop of Box::tryPushPieceTo: every translated point must be
in bounds and unoccupied. -/
def Box.canPush (b : Box) (p : Piece) (pos : Position) : Bool :=
  p.points.all fun q =>
    !b.isOutOfBound ⟨pos.x + q.x, pos.y + q.y, pos.z + q.z⟩ &&
    !b.isOccupied (pos.x + q.x) (pos.y + q.y) (pos.z + q.z)

/-- The commit loop of Box::tryPushPieceTo: mark every translated cell with
the piece's id. -/
def Box.commitPush (b : Box) (p : Piece) (pos : Position) : Box :=
  p.points.foldl
    (fun bb q => bb.setOccupied (pos.x + q.x) (pos.y + q.y) (pos.z + q.z) p.id) b

/-- Box::tryPushPieceTo: if any translated point is out of bounds or
occupied, report failure with the box untouched (the C++ returns before any
write); otherwise mark all translated cells, push one placement record, and
report success. -/
def Box.tryPushPieceTo (b : Box) (p : Piece) (pos : Position) : Bool × Box :=
  if b.canPush p pos then
    (true, { b.commitPush p pos with pieces := ⟨p, pos⟩ :: b.pieces })
  else
    (false, b)

/-- Outcome of Box::popPiece.  `ok` carries the updated box; `assertFailed`
is the fatal `assert(isOccupied(...))` firing; `undefinedBehavior` marks
`pieces.back()` being evaluated on an empty vector, which the C++ standard
leaves undefined (the source performs no emptiness check). -/
inductive PopOutcome where
  | ok (b : Box)
  | assertFailed
  | undefinedBehavior
  deriving DecidableEq, Repr

/-- The loop of Box::popPiece: for each point in order, assert the cell is
occupied, then clear it; a failed assert aborts mid-loop. -/
def Box.popLoop (b : Box) (pos : Position) : List Point → PopOutcome
  | [] => .ok b
  | q :: qs =>
      if b.isOccupied (pos.x + q.x) (pos.y + q.y) (pos.z + q.z) then
        Box.popLoop (b.clearOccupied (pos.x + q.x) (pos.y + q.y) (pos.z + q.z)) pos qs
      else
        .assertFailed

/-- Box::popPiece: read pieces.back() (undefined behavior when the stack is
empty), assert-and-clear each of its cells, then pop the record. -/
def Box.popPiece (b : Box) : PopOutcome :=
  match b.pieces with
  | [] => .undefinedBehavior
  | pp :: rest =>
      match Box.popLoop b pp.pos pp.piece.points with
      | .ok b' => .ok { b' with pieces := rest }
      | r => r

/-- The sequence of array indices Box::hasDupIDPiece reads in its local
`bool has[7]` before (and including) the access that returns: the id of
each stacked piece in order, stopping after the first repeated id. -/
def Box.hasDupIndices (b : Box) : List Nat :=
  let rec go (seen : List Nat) : List PiecePos → List Nat
    | [] => []
    | pp :: rest =>
        let i := pp.piece.id.toNat
        if i ∈ seen then [i] else i :: go (i :: seen) rest
  go [] b.pieces.reverse

/-- Box::hasDupIDPiece's boolean result (some stacked id repeats).  The
array accesses themselves are modelled by Box.hasDupIndices. -/
def Box.hasDupIDPiece (b : Box) : Bool :=
  let ids := b.pieces.map (fun pp => pp.piece.id)
  ids.length ≠ ids.dedup.length

/-- The innermost loop of Box::findFirstEmptyCell: one row of cells along
the z axis. -/
def Box.zRow (b : Box) (ix iy : Nat) : List Position :=
  (List.range b.z.toNat).map fun (iz : Nat) =>
    ⟨(ix : Int), (iy : Int), (iz : Int)⟩

/-- The middle loop of Box::findFirstEmptyCell: one plane of cells at a
fixed x. -/
def Box.yPlane (b : Box) (ix : Nat) : List Position :=
  (List.range b.y.toNat).flatMap (b.zRow ix)

/-- The cells of the box enumerated in the loop order of
Box::findFirstEmptyCell: x outer, y middle, z inner. -/
def Box.allCells (b : Box) : List Position :=
  (List.range b.x.toNat).flatMap b.yPlane

/-- Box::findFirstEmptyCell: return the first unoccupied cell in the scan
order, or the sentinel (-1, -1, -1) when every cell is occupied. -/
def Box.findFirstEmptyCell (b : Box) : Position :=
  match b.allCells.find? (fun c => !b.isOccupied c.x c.y c.z) with
  | some c => c
  | none => ⟨-1, -1, -1⟩

/-- Number of occupied entries of a data array. -/
def countOcc (d : List PieceID) : Nat :=
  d.countP (fun e => e != PieceID.NONE)

/-- One std::set insertion into a PieceOrients collection: std::set<Piece>
is keyed by Piece::operator< on the point sequence, so a piece is dropped
when a piece with the same points is already present. -/
def poInsert (s : List Piece) (p : Piece) : List Piece :=
  if s.any (fun q => q.points = p.points) then s else s ++ [p]

/-- The 24 pieces inserted by allRotations, in source order: the rotation
chain X X X, Z Y Y Y, Z X X X, Z Y Y Y, X Z Z Z, X X Z Z Z, inserting after
every step except the first rotateX of the final double rotateX. -/
def rotationChain (p0 : Piece) : List Piece :=
  let p1 := p0.rotateX
  let p2 := p1.rotateX
  let p3 := p2.rotateX
  let p4 := p3.rotateZ
  let p5 := p4.rotateY
  let p6 := p5.rotateY
  let p7 := p6.rotateY
  let p8 := p7.rotateZ
  let p9 := p8.rotateX
  let p10 := p9.rotateX
  let p11 := p10.rotateX
  let p12 := p11.rotateZ
  let p13 := p12.rotateY
  let p14 := p13.rotateY
  let p15 := p14.rotateY
  let p16 := p15.rotateX
  let p17 := p16.rotateZ
  let p18 := p17.rotateZ
  let p19 := p18.rotateZ
  let p20 := p19.rotateX
  let p21 := p20.rotateX
  let p22 := p21.rotateZ
  let p23 := p22.rotateZ
  let p24 := p23.rotateZ
  [p0, p1, p2, p3, p4, p5, p6, p7, p8, p9, p10, p11, p12, p13, p14, p15,
   p16, p17, p18, p19, p21, p22, p23, p24]

/-- The deduplicated set built by allRotations before its height filter. -/
def preFilterRotations (p : Piece) : List Piece :=
  (rotationChain p).foldl poInsert []

/-- allRotations: the deduplicated rotation set, then the hard-coded filter
keeping only orientations of bounding-box height at most 1. -/
def allRotations (p : Piece) : List Piece :=
  (preFilterRotations p).filter (fun q => q.size.z ≤ 1)

/-- One recursion step of the search: a chosen orientation-set tag, the
orientation, and the anchor position it was pushed at. -/
abbrev SearchStep := Nat × Piece × Position

/-- Recursion worker for searchNextCellPiece (src/main.cpp lines 351-397):
when the available-set list is empty record the box as a solution;
otherwise find the first empty cell and, for each available set and each
orientation in it, anchor the orientation's first point on the empty cell,
try to push, and on success recurse with that set removed (the C++ pops
the piece after the recursive call, restoring the box it continues with;
the embedding passes the unmodified box on to the remaining iterations).
The C++ recursion consumes exactly one set per level, so a fuel equal to
the list length never runs out; the fuel only makes the recursion
structural. -/
def searchGo : Nat → List (List Piece) → Box → List Box
  | _, [], b => [b]
  | 0, _ :: _, _ => []
  | Nat.succ fuel, l, b =>
      let ec := b.findFirstEmptyCell
      (List.range l.length).flatMap fun i =>
        (l.getD i []).flatMap fun p =>
          let q0 := p.points.headD ⟨0, 0, 0⟩
          let pos : Position := ⟨ec.x - q0.x, ec.y - q0.y, ec.z - q0.z⟩
          let res := b.tryPushPieceTo p pos
          if res.1 then searchGo fuel (l.eraseIdx i) res.2 else []

/-- searchNextCellPiece: the worker started with enough fuel. -/
def searchNextCellPiece (l : List (List Piece)) (b : Box) : List Box :=
  searchGo l.length l b

/-- The same recursion as searchNextCellPiece, instrumented to return, for
each recorded solution, the sequence of (set tag, orientation, anchor)
choices that produced it instead of the box snapshot. -/
def searchStepsGo : Nat → List (Nat × List Piece) → Box → List (List SearchStep)
  | _, [], _ => [[]]
  | 0, _ :: _, _ => []
  | Nat.succ fuel, l, b =>
      let ec := b.findFirstEmptyCell
      (List.range l.length).flatMap fun i =>
        (l.getD i (0, [])).2.flatMap fun p =>
          let q0 := p.points.headD ⟨0, 0, 0⟩
          let pos : Position := ⟨ec.x - q0.x, ec.y - q0.y, ec.z - q0.z⟩
          let res := b.tryPushPieceTo p pos
          if res.1 then
            (searchStepsGo fuel (l.eraseIdx i) res.2).map
              (fun t => ((l.getD i (0, [])).1, p, pos) :: t)
          else []

/-- The instrumented search started with enough fuel. -/
def searchSteps (l : List (Nat × List Piece)) (b : Box) : List (List SearchStep) :=
  searchStepsGo l.length l b

/-- Replaying a choice sequence against a box: push each step in order. -/
def pushSteps (b : Box) (path : List SearchStep) : Box :=
  path.foldl (fun bb st => (bb.tryPushPieceTo st.2.1 st.2.2).2) b

/-- A position is inside the box extents (the negation of isOutOfBound). -/
def Box.InBounds (b : Box) (c : Position) : Prop :=
  0 ≤ c.x ∧ c.x < b.x ∧ 0 ≤ c.y ∧ c.y < b.y ∧ 0 ≤ c.z ∧ c.z < b.z

instance : ∀ (b : Box) (c : Position), Decidable (b.InBounds c) := fun b c => by
  unfold Box.InBounds; infer_instance

/-- The cell owner read through the linear index. -/
def Box.cellAt (b : Box) (c : Position) : PieceID :=
  b.data.getD (b.index c.x c.y c.z) PieceID.NONE

/-- Propositional form of Box::isOccupied at a position. -/
def Box.Occ (b : Box) (c : Position) : Prop :=
  b.cellAt c ≠ PieceID.NONE

instance : ∀ (b : Box) (c : Position), Decidable (b.Occ c) := fun b c => by
  unfold Box.Occ; infer_instance

/-- Cell count of the box (the size of the data array the constructor
allocates). -/
def Box.vol (b : Box) : Nat := (b.x * b.y * b.z).toNat

/-- Well-formed box state: the data array has exactly vol entries (true
of every box the constructor produces, and preserved by all writes). -/
def Box.DLen (b : Box) : Prop := b.data.length = b.vol

theorem Box.isOutOfBound_eq_false_iff (b : Box) (c : Position) :
    b.isOutOfBound c = false ↔ b.InBounds c := by
  simp only [Box.isOutOfBound, Box.InBounds]
  simp [Bool.or_eq_false_iff, decide_eq_false_iff_not, not_lt, not_le]
  omega

theorem Box.isOccupied_eq_occ (b : Box) (c : Position) :
    b.isOccupied c.x c.y c.z = true ↔ b.Occ c := by
  simp only [Box.isOccupied, Box.Occ, Box.cellAt, bne_iff_ne]

/-- The linear index of an in-bounds cell is below the volume. -/
theorem Box.index_lt_vol (b : Box) (c : Position) (h : b.InBounds c) :
    b.index c.x c.y c.z < b.vol := by
  obtain ⟨h1, h2, h3, h4, h5, h6⟩ := h
  have hX : (0 : Int) < b.x := lt_of_le_of_lt h1 h2
  have hY : (0 : Int) < b.y := lt_of_le_of_lt h3 h4
  have hZ : (0 : Int) < b.z := lt_of_le_of_lt h5 h6
  have hyx : c.y * b.x ≤ (b.y - 1) * b.x :=
    mul_le_mul_of_nonneg_right (by omega) (le_of_lt hX)
  have hzxy : c.z * b.x * b.y ≤ (b.z - 1) * b.x * b.y := by
    have := mul_le_mul_of_nonneg_right
      (mul_le_mul_of_nonneg_right (show c.z ≤ b.z - 1 by omega) (le_of_lt hX))
      (le_of_lt hY)
    simpa using this
  have hlt : c.x + c.y * b.x + c.z * b.x * b.y < b.x * b.y * b.z := by
    nlinarith [hX, hY, hZ]
  have hge : 0 ≤ c.x + c.y * b.x + c.z * b.x * b.y := by
    have := mul_nonneg (mul_nonneg h5 (le_of_lt hX)) (le_of_lt hY)
    have := mul_nonneg h3 (le_of_lt hX)
    omega
  unfold Box.index Box.vol
  omega

/-- The linear index is injective on in-bounds cells. -/
theorem Box.index_inj (b : Box) (c d : Position)
    (hc : b.InBounds c) (hd : b.InBounds d)
    (h : b.index c.x c.y c.z = b.index d.x d.y d.z) : c = d := by
  obtain ⟨hc1, hc2, hc3, hc4, hc5, hc6⟩ := hc
  obtain ⟨hd1, hd2, hd3, hd4, hd5, hd6⟩ := hd
  have hX : (0 : Int) < b.x := lt_of_le_of_lt hc1 hc2
  have hY : (0 : Int) < b.y := lt_of_le_of_lt hc3 hc4
  have hcge : 0 ≤ c.x + c.y * b.x + c.z * b.x * b.y := by
    have := mul_nonneg (mul_nonneg hc5 (le_of_lt hX)) (le_of_lt hY)
    have := mul_nonneg hc3 (le_of_lt hX)
    omega
  have hdge : 0 ≤ d.x + d.y * b.x + d.z * b.x * b.y := by
    have := mul_nonneg (mul_nonneg hd5 (le_of_lt hX)) (le_of_lt hY)
    have := mul_nonneg hd3 (le_of_lt hX)
    omega
  have heq : c.x + c.y * b.x + c.z * b.x * b.y
      = d.x + d.y * b.x + d.z * b.x * b.y := by
    unfold Box.index at h
    omega
  have heq' : c.x + b.x * (c.y + b.y * c.z) = d.x + b.x * (d.y + b.y * d.z) := by
    linear_combination heq
  have hx : c.x = d.x := by
    have e1 : (c.x + b.x * (c.y + b.y * c.z)) % b.x = c.x := by
      rw [Int.add_mul_emod_self_left, Int.emod_eq_of_lt hc1 hc2]
    have e2 : (d.x + b.x * (d.y + b.y * d.z)) % b.x = d.x := by
      rw [Int.add_mul_emod_self_left, Int.emod_eq_of_lt hd1 hd2]
    rw [← e1, ← e2, heq']
  have hrest : c.y + b.y * c.z = d.y + b.y * d.z := by
    have := heq'
    rw [hx] at this
    have h2 : b.x * (c.y + b.y * c.z) = b.x * (d.y + b.y * d.z) := by omega
    exact mul_left_cancel₀ (ne_of_gt hX) h2
  have hy : c.y = d.y := by
    have e1 : (c.y + b.y * c.z) % b.y = c.y := by
      rw [Int.add_mul_emod_self_left, Int.emod_eq_of_lt hc3 hc4]
    have e2 : (d.y + b.y * d.z) % b.y = d.y := by
      rw [Int.add_mul_emod_self_left, Int.emod_eq_of_lt hd3 hd4]
    rw [← e1, ← e2, hrest]
  have hz : c.z = d.z := by
    rw [hy] at hrest
    have h2 : b.y * c.z = b.y * d.z := by omega
    exact mul_left_cancel₀ (ne_of_gt hY) h2
  cases c; cases d
  simp_all

/-- Reading a cell after a single write: same cell gives the written id,
a different in-bounds cell is untouched. -/
theorem Box.cellAt_setOccupied (b : Box) (hb : b.DLen) (c d : Position)
    (hc : b.InBounds c) (hd : b.InBounds d) (id : PieceID) :
    (b.setOccupied c.x c.y c.z id).cellAt d = if d = c then id else b.cellAt d := by
  have hlt : b.index c.x c.y c.z < b.data.length := by
    rw [hb]; exact b.index_lt_vol c hc
  have hgoal : (b.setOccupied c.x c.y c.z id).cellAt d
      = (b.data.set (b.index c.x c.y c.z) id).getD (b.index d.x d.y d.z)
        PieceID.NONE := rfl
  rw [hgoal]
  by_cases hdc : d = c
  · subst hdc
    rw [List.getD_eq_getElem?_getD, List.getElem?_set_self hlt,
      Option.getD_some, if_pos rfl]
  · have hne : b.index c.x c.y c.z ≠ b.index d.x d.y d.z :=
      fun h => hdc (b.index_inj c d hc hd h).symm
    rw [if_neg hdc, List.getD_eq_getElem?_getD, List.getElem?_set_ne hne]
    rw [Box.cellAt, List.getD_eq_getElem?_getD]

/-- Translation of a shape point by an anchor position. -/
def Position.trans (pos : Position) (q : Point) : Position :=
  ⟨pos.x + q.x, pos.y + q.y, pos.z + q.z⟩

theorem cellsOf_eq_map (p : Piece) (pos : Position) :
    cellsOf p pos = p.points.map pos.trans := rfl

theorem Box.canPush_iff (b : Box) (p : Piece) (pos : Position) :
    b.canPush p pos = true ↔ ∀ c ∈ cellsOf p pos, b.InBounds c ∧ ¬ b.Occ c := by
  unfold Box.canPush
  rw [List.all_eq_true]
  constructor
  · intro h c hc
    rw [cellsOf_eq_map, List.mem_map] at hc
    obtain ⟨q, hq, rfl⟩ := hc
    have := h q hq
    rw [Bool.and_eq_true, Bool.not_eq_true', Bool.not_eq_true'] at this
    obtain ⟨h1, h2⟩ := this
    refine ⟨(b.isOutOfBound_eq_false_iff _).mp h1, fun hocc => ?_⟩
    have := (b.isOccupied_eq_occ (pos.trans q)).mpr hocc
    simp only [Position.trans] at this
    rw [this] at h2
    exact absurd h2 (by simp)
  · intro h q hq
    have := h (pos.trans q) (by rw [cellsOf_eq_map]; exact List.mem_map_of_mem _ hq)
    rw [Bool.and_eq_true, Bool.not_eq_true', Bool.not_eq_true']
    refine ⟨(b.isOutOfBound_eq_false_iff _).mpr this.1, ?_⟩
    have h2 := this.2
    rw [← b.isOccupied_eq_occ (pos.trans q)] at h2
    simp only [Position.trans] at h2
    exact Bool.not_eq_true _ ▸ (by simpa using h2)

theorem Box.setOccupied_x (b : Box) (px py pz : Int) (id : PieceID) :
    (b.setOccupied px py pz id).x = b.x := rfl

theorem Box.setOccupied_pieces (b : Box) (px py pz : Int) (id : PieceID) :
    (b.setOccupied px py pz id).pieces = b.pieces := rfl

theorem Box.setOccupied_InBounds (b : Box) (px py pz : Int) (id : PieceID)
    (c : Position) : (b.setOccupied px py pz id).InBounds c ↔ b.InBounds c :=
  Iff.rfl

theorem Box.setOccupied_DLen (b : Box) (px py pz : Int) (id : PieceID)
    (hb : b.DLen) : (b.setOccupied px py pz id).DLen := by
  unfold Box.DLen Box.vol at hb ⊢
  simpa [Box.setOccupied] using hb

/-- The commit loop of tryPushPieceTo, over an arbitrary point list. -/
def commitList (pos : Position) (id : PieceID) (pts : List Point) (b : Box) : Box :=
  pts.foldl
    (fun bb q => bb.setOccupied (pos.x + q.x) (pos.y + q.y) (pos.z + q.z) id) b

theorem Box.commitPush_eq (b : Box) (p : Piece) (pos : Position) :
    b.commitPush p pos = commitList pos p.id p.points b := rfl

theorem commitList_x (pos : Position) (id : PieceID) :
    ∀ (pts : List Point) (b : Box), (commitList pos id pts b).x = b.x := by
  intro pts
  induction pts with
  | nil => intro b; rfl
  | cons q rest ih => intro b; exact ih _

theorem commitList_y (pos : Position) (id : PieceID) :
    ∀ (pts : List Point) (b : Box), (commitList pos id pts b).y = b.y := by
  intro pts
  induction pts with
  | nil => intro b; rfl
  | cons q rest ih => intro b; exact ih _

theorem commitList_z (pos : Position) (id : PieceID) :
    ∀ (pts : List Point) (b : Box), (commitList pos id pts b).z = b.z := by
  intro pts
  induction pts with
  | nil => intro b; rfl
  | cons q rest ih => intro b; exact ih _

theorem commitList_pieces (pos : Position) (id : PieceID) :
    ∀ (pts : List Point) (b : Box), (commitList pos id pts b).pieces = b.pieces := by
  intro pts
  induction pts with
  | nil => intro b; rfl
  | cons q rest ih => intro b; exact ih _

theorem commitList_DLen (pos : Position) (id : PieceID) :
    ∀ (pts : List Point) (b : Box), b.DLen → (commitList pos id pts b).DLen := by
  intro pts
  induction pts with
  | nil => intro b hb; exact hb
  | cons q rest ih => intro b hb; exact ih _ (b.setOccupied_DLen _ _ _ _ hb)

theorem commitList_InBounds (pos : Position) (id : PieceID) (pts : List Point)
    (b : Box) (c : Position) :
    (commitList pos id pts b).InBounds c ↔ b.InBounds c := by
  unfold Box.InBounds
  rw [commitList_x, commitList_y, commitList_z]

/-- Reading a cell after the commit loop: translated cells hold the pushed
id, every other in-bounds cell is untouched. -/
theorem commitList_cellAt (pos : Position) (id : PieceID) :
    ∀ (pts : List Point) (b : Box), b.DLen →
    (∀ q ∈ pts, b.InBounds (pos.trans q)) → ∀ d, b.InBounds d →
    (commitList pos id pts b).cellAt d =
      if d ∈ pts.map pos.trans then id else b.cellAt d := by
  intro pts
  induction pts with
  | nil => intro b _ _ d _; simp [commitList]
  | cons q rest ih =>
    intro b hb hin d hd
    have hq : b.InBounds (pos.trans q) := hin q (List.mem_cons_self q rest)
    have hb1 : (b.setOccupied (pos.x + q.x) (pos.y + q.y) (pos.z + q.z) id).DLen :=
      b.setOccupied_DLen _ _ _ _ hb
    have hin1 : ∀ r ∈ rest,
        (b.setOccupied (pos.x + q.x) (pos.y + q.y) (pos.z + q.z) id).InBounds
          (pos.trans r) :=
      fun r hr => hin r (List.mem_cons_of_mem _ hr)
    have hd1 : (b.setOccupied (pos.x + q.x) (pos.y + q.y) (pos.z + q.z) id).InBounds d := hd
    have hrec := ih _ hb1 hin1 d hd1
    have hstep : commitList pos id (q :: rest) b
        = commitList pos id rest
          (b.setOccupied (pos.x + q.x) (pos.y + q.y) (pos.z + q.z) id) := rfl
    rw [hstep, hrec]
    have hset : (b.setOccupied (pos.x + q.x) (pos.y + q.y) (pos.z + q.z) id).cellAt d
        = if d = pos.trans q then id else b.cellAt d :=
      b.cellAt_setOccupied hb (pos.trans q) d hq hd id
    simp only [List.map_cons, List.mem_cons]
    by_cases hdr : d ∈ List.map pos.trans rest
    · simp [hdr]
    · rw [if_neg hdr, hset]
      by_cases hdq : d = pos.trans q
      · simp [hdq]
      · simp [hdq, hdr]

theorem Box.tryPush_of_fail (b : Box) (p : Piece) (pos : Position)
    (h : b.canPush p pos = false) : b.tryPushPieceTo p pos = (false, b) := by
  simp [Box.tryPushPieceTo, h]

theorem Box.tryPush_of_ok (b : Box) (p : Piece) (pos : Position)
    (h : b.canPush p pos = true) :
    b.tryPushPieceTo p pos
      = (true, { b.commitPush p pos with pieces := ⟨p, pos⟩ :: b.pieces }) := by
  simp [Box.tryPushPieceTo, h]

theorem Box.pushed_x (b : Box) (p : Piece) (pos : Position)
    (h : b.canPush p pos = true) : (b.tryPushPieceTo p pos).2.x = b.x := by
  rw [Box.tryPush_of_ok b p pos h]
  exact commitList_x pos p.id p.points b

theorem Box.pushed_y (b : Box) (p : Piece) (pos : Position)
    (h : b.canPush p pos = true) : (b.tryPushPieceTo p pos).2.y = b.y := by
  rw [Box.tryPush_of_ok b p pos h]
  exact commitList_y pos p.id p.points b

theorem Box.pushed_z (b : Box) (p : Piece) (pos : Position)
    (h : b.canPush p pos = true) : (b.tryPushPieceTo p pos).2.z = b.z := by
  rw [Box.tryPush_of_ok b p pos h]
  exact commitList_z pos p.id p.points b

theorem Box.pushed_pieces (b : Box) (p : Piece) (pos : Position)
    (h : b.canPush p pos = true) :
    (b.tryPushPieceTo p pos).2.pieces = ⟨p, pos⟩ :: b.pieces := by
  rw [Box.tryPush_of_ok b p pos h]

theorem Box.pushed_DLen (b : Box) (p : Piece) (pos : Position) (hb : b.DLen)
    (h : b.canPush p pos = true) : (b.tryPushPieceTo p pos).2.DLen := by
  rw [Box.tryPush_of_ok b p pos h]
  have h1 := commitList_DLen pos p.id p.points b hb
  unfold Box.DLen Box.vol at h1 ⊢
  rw [Box.commitPush_eq]
  simpa [commitList_x, commitList_y, commitList_z] using h1

theorem Box.pushed_InBounds (b : Box) (p : Piece) (pos : Position)
    (h : b.canPush p pos = true) (c : Position) :
    (b.tryPushPieceTo p pos).2.InBounds c ↔ b.InBounds c := by
  unfold Box.InBounds
  rw [Box.pushed_x b p pos h, Box.pushed_y b p pos h, Box.pushed_z b p pos h]

theorem Box.pushed_cellAt (b : Box) (p : Piece) (pos : Position) (hb : b.DLen)
    (h : b.canPush p pos = true) (d : Position) (hd : b.InBounds d) :
    (b.tryPushPieceTo p pos).2.cellAt d
      = if d ∈ cellsOf p pos then p.id else b.cellAt d := by
  rw [Box.tryPush_of_ok b p pos h]
  have hin : ∀ q ∈ p.points, b.InBounds (pos.trans q) := by
    intro q hq
    exact ((b.canPush_iff p pos).mp h (pos.trans q)
      (by rw [cellsOf_eq_map]; exact List.mem_map_of_mem _ hq)).1
  have := commitList_cellAt pos p.id p.points b hb hin d hd
  rw [cellsOf_eq_map]
  exact this

theorem Box.pushed_Occ (b : Box) (p : Piece) (pos : Position) (hb : b.DLen)
    (h : b.canPush p pos = true) (hid : p.id ≠ PieceID.NONE)
    (d : Position) (hd : b.InBounds d) :
    ((b.tryPushPieceTo p pos).2.Occ d ↔ d ∈ cellsOf p pos ∨ b.Occ d) := by
  unfold Box.Occ
  rw [Box.pushed_cellAt b p pos hb h d hd]
  by_cases hdc : d ∈ cellsOf p pos
  · simp [hdc, hid]
  · simp [hdc]

theorem countOcc_le_length (d : List PieceID) : countOcc d ≤ d.length :=
  List.countP_le_length _

theorem countOcc_eq_length_iff (d : List PieceID) :
    countOcc d = d.length ↔ ∀ e ∈ d, e ≠ PieceID.NONE := by
  unfold countOcc
  rw [List.countP_eq_length]
  constructor
  · intro h e he
    have := h e he
    simpa using this
  · intro h e he
    simpa using h e he

/-- Writing a non-NONE id into an in-bounds, currently-empty cell raises
the occupied count by one. -/
theorem countOcc_setOccupied (b : Box) (hb : b.DLen) (c : Position)
    (hc : b.InBounds c) (hocc : ¬ b.Occ c) (id : PieceID)
    (hid : id ≠ PieceID.NONE) :
    countOcc (b.setOccupied c.x c.y c.z id).data = countOcc b.data + 1 := by
  have hlt : b.index c.x c.y c.z < b.data.length := by
    rw [hb]; exact b.index_lt_vol c hc
  have hcell : b.data[b.index c.x c.y c.z] = PieceID.NONE := by
    unfold Box.Occ Box.cellAt at hocc
    rw [List.getD_eq_getElem?_getD, List.getElem?_eq_getElem hlt,
      Option.getD_some] at hocc
    simpa using hocc
  unfold countOcc Box.setOccupied
  rw [List.countP_set _ _ _ _ hlt, hcell]
  simp [hid]

/-- Committing a piece whose translated cells are pairwise distinct,
in bounds and unoccupied raises the occupied count by the point count. -/
theorem countOcc_commitList (pos : Position) (id : PieceID)
    (hid : id ≠ PieceID.NONE) :
    ∀ (pts : List Point) (b : Box), b.DLen →
    (pts.map pos.trans).Nodup →
    (∀ q ∈ pts, b.InBounds (pos.trans q) ∧ ¬ b.Occ (pos.trans q)) →
    countOcc (commitList pos id pts b).data = countOcc b.data + pts.length := by
  intro pts
  induction pts with
  | nil => intro b _ _ _; simp [commitList]
  | cons q rest ih =>
    intro b hb hnd hin
    have hq := hin q (List.mem_cons_self q rest)
    have hstep : commitList pos id (q :: rest) b
        = commitList pos id rest
          (b.setOccupied (pos.x + q.x) (pos.y + q.y) (pos.z + q.z) id) := rfl
    have hset : (b.setOccupied (pos.x + q.x) (pos.y + q.y) (pos.z + q.z) id)
        = b.setOccupied (pos.trans q).x (pos.trans q).y (pos.trans q).z id := rfl
    have hb1 : (b.setOccupied (pos.x + q.x) (pos.y + q.y) (pos.z + q.z) id).DLen :=
      b.setOccupied_DLen _ _ _ _ hb
    rw [List.map_cons, List.nodup_cons] at hnd
    have hin1 : ∀ r ∈ rest,
        (b.setOccupied (pos.x + q.x) (pos.y + q.y) (pos.z + q.z) id).InBounds
          (pos.trans r) ∧
        ¬ (b.setOccupied (pos.x + q.x) (pos.y + q.y) (pos.z + q.z) id).Occ
          (pos.trans r) := by
      intro r hr
      have hrb := hin r (List.mem_cons_of_mem _ hr)
      refine ⟨hrb.1, ?_⟩
      unfold Box.Occ
      rw [hset, b.cellAt_setOccupied hb (pos.trans q) (pos.trans r) hq.1 hrb.1 id]
      rw [if_neg (by
        intro hh
        exact hnd.1 (hh ▸ List.mem_map_of_mem pos.trans hr))]
      exact hrb.2
    have hrec := ih _ hb1 hnd.2 hin1
    rw [hstep, hrec]
    rw [hset, countOcc_setOccupied b hb (pos.trans q) hq.1 hq.2 id hid]
    simp [List.length_cons]
    omega

theorem Box.tryPush_fst (b : Box) (p : Piece) (pos : Position) :
    (b.tryPushPieceTo p pos).1 = b.canPush p pos := by
  unfold Box.tryPushPieceTo
  by_cases h : b.canPush p pos <;> simp [h]

/-- Claim C3: tryPushPieceTo is check-then-commit atomic.  If any translated
point of the shape is out of bounds or lands on an occupied cell, it
returns false with the box (grid and placement stack) unchanged; otherwise
it returns true, pushes exactly one placement record, and marks exactly
the translated cells with the piece's id, leaving every other in-bounds
cell untouched. -/
theorem claim_C3 (b : Box) (p : Piece) (pos : Position) (hb : b.DLen) :
    ((∃ c ∈ cellsOf p pos, ¬ b.InBounds c ∨ b.Occ c) →
        b.tryPushPieceTo p pos = (false, b)) ∧
    ((∀ c ∈ cellsOf p pos, b.InBounds c ∧ ¬ b.Occ c) →
        (b.tryPushPieceTo p pos).1 = true ∧
        (b.tryPushPieceTo p pos).2.pieces = ⟨p, pos⟩ :: b.pieces ∧
        ∀ d, b.InBounds d →
          (b.tryPushPieceTo p pos).2.cellAt d
            = if d ∈ cellsOf p pos then p.id else b.cellAt d) := by
  constructor
  · intro hfail
    apply b.tryPush_of_fail
    rw [Bool.eq_false_iff]
    intro hcan
    obtain ⟨c, hc, hbad⟩ := hfail
    have := (b.canPush_iff p pos).mp hcan c hc
    tauto
  · intro hok
    have hcan : b.canPush p pos = true := (b.canPush_iff p pos).mpr hok
    exact ⟨by rw [b.tryPush_fst]; exact hcan,
      b.pushed_pieces p pos hcan,
      fun d hd => b.pushed_cellAt p pos hb hcan d hd⟩

/-- A concrete one-cell piece used by witnesses and counterexamples. -/
def oneCellPiece : Piece := ⟨.H7, [⟨0, 0, 0⟩], ⟨1, 1, 1⟩⟩

/-- Witness for claim C3 at a concrete input: pushing a one-cell piece at
the origin of an empty 1 by 1 by 1 box succeeds. -/
instance : ∀ b : Box, Decidable b.DLen := fun b => by
  unfold Box.DLen; infer_instance

theorem claim_C3_witness :
    ((Box.make 1 1 1).tryPushPieceTo oneCellPiece ⟨0, 0, 0⟩).1 = true :=
  ((claim_C3 (Box.make 1 1 1) oneCellPiece ⟨0, 0, 0⟩ (by decide)).2
    (by decide)).1

theorem Position.trans_inj (pos : Position) :
    Function.Injective pos.trans := by
  intro a b h
  have h1 : pos.x + a.x = pos.x + b.x := congrArg Position.x h
  have h2 : pos.y + a.y = pos.y + b.y := congrArg Position.y h
  have h3 : pos.z + a.z = pos.z + b.z := congrArg Position.z h
  cases a; cases b
  simp only at h1 h2 h3
  simp only [Point.mk.injEq]
  omega

theorem Box.make_DLen (x y z : Int) : (Box.make x y z).DLen := by
  unfold Box.make Box.DLen Box.vol
  simp

theorem countOcc_make (x y z : Int) : countOcc (Box.make x y z).data = 0 := by
  unfold Box.make countOcc
  simp [List.countP_eq_zero]

theorem zip_eraseIdx {α β : Type} :
    ∀ (l : List α) (cs : List β) (i : Nat),
      (l.eraseIdx i).zip (cs.eraseIdx i) = (l.zip cs).eraseIdx i := by
  intro l
  induction l with
  | nil => intro cs i; simp
  | cons a as ih =>
    intro cs i
    cases cs with
    | nil => simp
    | cons c cst =>
      cases i with
      | zero => simp only [List.eraseIdx]; rfl
      | succ j =>
        simp only [List.eraseIdx, List.zip_cons_cons]
        rw [ih]
        rfl

theorem sum_eraseIdx :
    ∀ (cs : List Nat) (i : Nat), i < cs.length →
      cs.sum = cs.getD i 0 + (cs.eraseIdx i).sum := by
  intro cs
  induction cs with
  | nil => intro i h; simp at h
  | cons c cst ih =>
    intro i h
    cases i with
    | zero => simp [List.eraseIdx]
    | succ j =>
      simp only [List.length_cons, Nat.succ_lt_succ_iff] at h
      simp only [List.eraseIdx, List.sum_cons, List.getD_cons_succ]
      rw [ih j h]
      omega

theorem getD_zip_mem {α β : Type} (l : List α) (cs : List β) (d : α) (e : β)
    (i : Nat) (hl : i < l.length) (hc : i < cs.length) :
    (l.getD i d, cs.getD i e) ∈ l.zip cs := by
  have h1 : l.getD i d = l[i] := List.getD_eq_getElem l d hl
  have h2 : cs.getD i e = cs[i] := List.getD_eq_getElem cs e hc
  have hz : i < (l.zip cs).length := by
    rw [List.length_zip]; omega
  have : (l.zip cs)[i] = (l[i], cs[i]) := List.getElem_zip ..
  rw [h1, h2, ← this]
  exact List.getElem_mem hz

/-- Unfolding of the search worker on a non-empty set list. -/
theorem searchGo_succ (fuel : Nat) (l : List (List Piece)) (b : Box)
    (hl : l ≠ []) :
    searchGo (Nat.succ fuel) l b =
      (List.range l.length).flatMap (fun i =>
        (l.getD i []).flatMap (fun p =>
          let q0 := p.points.headD ⟨0, 0, 0⟩
          let pos : Position := ⟨b.findFirstEmptyCell.x - q0.x,
            b.findFirstEmptyCell.y - q0.y, b.findFirstEmptyCell.z - q0.z⟩
          let res := b.tryPushPieceTo p pos
          if res.1 then searchGo fuel (l.eraseIdx i) res.2 else [])) := by
  cases l with
  | nil => exact absurd rfl hl
  | cons a as => rfl

/-- Well-formedness of an orientation-set list paired with per-set cell
counts: real ids, duplicate-free point lists of the stated length. -/
def SetsSized (l : List (List Piece)) (cs : List Nat) : Prop :=
  cs.length = l.length ∧
  ∀ pr ∈ l.zip cs, ∀ p ∈ pr.1,
    p.id ≠ PieceID.NONE ∧ p.points.Nodup ∧ p.points.length = pr.2

theorem SetsSized_eraseIdx (l : List (List Piece)) (cs : List Nat) (i : Nat)
    (h : SetsSized l cs) : SetsSized (l.eraseIdx i) (cs.eraseIdx i) := by
  obtain ⟨hlen, hsets⟩ := h
  constructor
  · rw [List.length_eraseIdx, List.length_eraseIdx, hlen]
  · intro pr hpr
    rw [zip_eraseIdx] at hpr
    exact hsets pr (List.mem_of_mem_eraseIdx hpr)

/-- Every solution the search worker records has the dimensions and data
length of the starting box, and its occupied count is the starting count
plus the total cell count of the available pieces. -/
theorem searchGo_countOcc :
    ∀ (fuel : Nat) (l : List (List Piece)) (b : Box) (cs : List Nat),
    l.length ≤ fuel → b.DLen → SetsSized l cs →
    ∀ sol ∈ searchGo fuel l b,
      sol.x = b.x ∧ sol.y = b.y ∧ sol.z = b.z ∧ sol.DLen ∧
      countOcc sol.data = countOcc b.data + cs.sum := by
  intro fuel
  induction fuel with
  | zero =>
    intro l b cs hfuel hb hwf sol hsol
    have hl : l = [] := List.length_eq_zero.mp (by omega)
    subst hl
    simp only [searchGo, List.mem_singleton] at hsol
    subst hsol
    have : cs = [] := List.length_eq_zero.mp hwf.1
    subst this
    exact ⟨rfl, rfl, rfl, hb, by simp⟩
  | succ fuel ih =>
    intro l b cs hfuel hb hwf sol hsol
    cases hl : l with
    | nil =>
      subst hl
      simp only [searchGo, List.mem_singleton] at hsol
      subst hsol
      have : cs = [] := List.length_eq_zero.mp hwf.1
      subst this
      exact ⟨rfl, rfl, rfl, hb, by simp⟩
    | cons a as =>
      rw [searchGo_succ fuel l b (by rw [hl]; simp)] at hsol
      rw [List.mem_flatMap] at hsol
      obtain ⟨i, hi, hsol⟩ := hsol
      rw [List.mem_range] at hi
      have hclen : cs.length = l.length := hwf.1
      rw [List.mem_flatMap] at hsol
      obtain ⟨p, hp, hsol⟩ := hsol
      simp only at hsol
      set q0 := p.points.headD ⟨0, 0, 0⟩ with hq0
      set pos : Position := ⟨b.findFirstEmptyCell.x - q0.x,
        b.findFirstEmptyCell.y - q0.y, b.findFirstEmptyCell.z - q0.z⟩ with hpos
      by_cases hres : (b.tryPushPieceTo p pos).1 = true
      · rw [if_pos hres] at hsol
        have hcan : b.canPush p pos = true := by
          rw [← b.tryPush_fst]; exact hres
        have hprop := hwf.2 (l.getD i [], cs.getD i 0)
          (getD_zip_mem l cs [] 0 i hi (by omega)) p hp
        obtain ⟨hid, hnd, hlen⟩ := hprop
        have hp2 : (b.tryPushPieceTo p pos).2.DLen :=
          b.pushed_DLen p pos hb hcan
        have hwf2 : SetsSized (l.eraseIdx i) (cs.eraseIdx i) :=
          SetsSized_eraseIdx l cs i hwf
        have hfl : (l.eraseIdx i).length ≤ fuel := by
          rw [List.length_eraseIdx]
          simp only [hi, if_pos]
          omega
        obtain ⟨e1, e2, e3, e4, e5⟩ :=
          ih (l.eraseIdx i) (b.tryPushPieceTo p pos).2 (cs.eraseIdx i)
            hfl hp2 hwf2 sol hsol
        have hcells : ∀ c ∈ cellsOf p pos, b.InBounds c ∧ ¬ b.Occ c :=
          (b.canPush_iff p pos).mp hcan
        have hcnt : countOcc (b.tryPushPieceTo p pos).2.data
            = countOcc b.data + p.points.length := by
          rw [b.tryPush_of_ok p pos hcan]
          have : ({ b.commitPush p pos with
              pieces := ⟨p, pos⟩ :: b.pieces } : Box).data
              = (commitList pos p.id p.points b).data := rfl
          rw [this]
          apply countOcc_commitList pos p.id hid p.points b hb
          · exact List.Nodup.map (Position.trans_inj pos) hnd
          · intro q hq
            exact hcells (pos.trans q)
              (by rw [cellsOf_eq_map]; exact List.mem_map_of_mem _ hq)
        refine ⟨by rw [e1]; exact b.pushed_x p pos hcan,
          by rw [e2]; exact b.pushed_y p pos hcan,
          by rw [e3]; exact b.pushed_z p pos hcan, e4, ?_⟩
        rw [e5, hcnt, hlen]
        rw [sum_eraseIdx cs i (by omega)]
        omega
      · rw [if_neg hres] at hsol
        exact absurd hsol (List.not_mem_nil sol)

instance : ∀ (l : List (List Piece)) (cs : List Nat),
    Decidable (SetsSized l cs) := fun l cs => by
  unfold SetsSized; infer_instance

/-- Claim C1 (amended): when the box volume equals the pieces' total cell
count, every snapshot searchNextCellPiece records is a complete tiling;
and when the total cell count exceeds the box volume the search records
no solution.  (The unamended claim fails when the volume exceeds the
total: the search then records snapshots that still contain empty cells,
because the success leaf tests only that no pieces remain.) -/
theorem claim_C1 (X Y Z : Int) (l : List (List Piece)) (cs : List Nat)
    (hwf : SetsSized l cs) :
    ((Box.make X Y Z).vol = cs.sum →
      ∀ sol ∈ searchNextCellPiece l (Box.make X Y Z),
        ∀ e ∈ sol.data, e ≠ PieceID.NONE) ∧
    (cs.sum > (Box.make X Y Z).vol →
      searchNextCellPiece l (Box.make X Y Z) = []) := by
  have hmain : ∀ sol ∈ searchNextCellPiece l (Box.make X Y Z),
      sol.data.length = (Box.make X Y Z).vol ∧
      countOcc sol.data = cs.sum := by
    intro sol hsol
    have := searchGo_countOcc l.length l (Box.make X Y Z) cs (le_refl _)
      (Box.make_DLen X Y Z) hwf sol hsol
    obtain ⟨e1, e2, e3, e4, e5⟩ := this
    rw [countOcc_make] at e5
    constructor
    · rw [e4]
      unfold Box.vol
      rw [e1, e2, e3]
    · omega
  constructor
  · intro hvol sol hsol
    obtain ⟨h1, h2⟩ := hmain sol hsol
    have : countOcc sol.data = sol.data.length := by omega
    exact (countOcc_eq_length_iff sol.data).mp this
  · intro hvol
    rw [List.eq_nil_iff_forall_not_mem]
    intro sol hsol
    obtain ⟨h1, h2⟩ := hmain sol hsol
    have := countOcc_le_length sol.data
    omega

/-- Counterexample to claim C1 as stated: a 2 by 1 by 1 box (volume 2)
with a single one-cell piece (total cell count 1, so volume and total
differ) still records exactly one solution, and that snapshot has an
unoccupied cell. -/
theorem claim_C1_counterexample :
    (Box.make 2 1 1).vol = 2 ∧ oneCellPiece.points.length = 1 ∧
    (searchNextCellPiece [[oneCellPiece]] (Box.make 2 1 1)).map Box.data
      = [[PieceID.H7, PieceID.NONE]] := by decide

/-- Witness for claim C1 at a concrete input: the 1 by 1 by 1 box with the
one-cell piece, whose unique recorded solution is fully occupied. -/
theorem claim_C1_witness :
    (Box.make 1 1 1).vol = [1].sum ∧ PieceID.H7 ≠ PieceID.NONE :=
  ⟨by decide,
    (claim_C1 1 1 1 [[oneCellPiece]] [1] (by decide)).1 (by decide)
      ⟨1, 1, 1, [PieceID.H7], [⟨oneCellPiece, ⟨0, 0, 0⟩⟩]⟩ (by decide)
      PieceID.H7 (by decide)⟩

theorem Box.clearOccupied_eq_set (b : Box) (px py pz : Int) :
    b.clearOccupied px py pz = b.setOccupied px py pz PieceID.NONE := rfl

/-- Clearing any cell can only remove occupancy, never create it. -/
theorem Box.clear_Occ_mono (b : Box) (px py pz : Int) (c : Position)
    (h : (b.clearOccupied px py pz).Occ c) : b.Occ c := by
  unfold Box.Occ at h ⊢
  have hch : (b.clearOccupied px py pz).cellAt c
      = (b.data.set (b.index px py pz) PieceID.NONE).getD
          (b.index c.x c.y c.z) PieceID.NONE := rfl
  rw [hch] at h
  by_cases hix : b.index px py pz = b.index c.x c.y c.z
  · exfalso
    apply h
    rw [← hix, List.getD_eq_getElem?_getD, List.getElem?_set]
    by_cases hlt : b.index px py pz < b.data.length
    · simp [hlt]
    · simp [hlt]
  · rw [List.getD_eq_getElem?_getD, List.getElem?_set_ne hix] at h
    unfold Box.cellAt
    rw [List.getD_eq_getElem?_getD]
    exact h

/-- If some translated cell of the popped record is unoccupied, the
assert in the popPiece loop fires. -/
theorem Box.popLoop_assertFailed (pos : Position) :
    ∀ (pts : List Point) (b : Box),
    (∃ q ∈ pts, ¬ b.Occ (pos.trans q)) →
    b.popLoop pos pts = PopOutcome.assertFailed := by
  intro pts
  induction pts with
  | nil => intro b h; simp at h
  | cons q rest ih =>
    intro b h
    unfold Box.popLoop
    by_cases hq : b.isOccupied (pos.x + q.x) (pos.y + q.y) (pos.z + q.z) = true
    · rw [if_pos hq]
      apply ih
      obtain ⟨r, hr, hnr⟩ := h
      rcases List.mem_cons.mp hr with rfl | hr2
      · exfalso
        exact hnr ((b.isOccupied_eq_occ (pos.trans r)).mp hq)
      · refine ⟨r, hr2, fun hocc => hnr (Box.clear_Occ_mono _ _ _ _ _ hocc)⟩
    · rw [if_neg hq]

/-- Claim C9 (amended): the popPiece loop aborts on the fatal assert when
some cell of the most recent placement is not currently occupied; but a
pop on an empty placement stack evaluates pieces.back() on an empty
vector, which is undefined behavior with no emptiness assertion. -/
theorem claim_C9 (b : Box) :
    (b.pieces = [] → b.popPiece = PopOutcome.undefinedBehavior) ∧
    (∀ pp rest, b.pieces = pp :: rest →
      (∃ q ∈ pp.piece.points, ¬ b.Occ (pp.pos.trans q)) →
      b.popPiece = PopOutcome.assertFailed) := by
  constructor
  · intro h
    unfold Box.popPiece
    rw [h]
  · intro pp rest h hbad
    unfold Box.popPiece
    rw [h]
    have hfail := Box.popLoop_assertFailed pp.pos pp.piece.points b hbad
    simp [hfail]

/-- Counterexample to claim C9 as stated: popping from an empty stack is
undefined behavior (an unchecked pieces.back() on an empty vector), not a
halted fatal assertion. -/
theorem claim_C9_counterexample :
    (Box.make 1 1 1).popPiece = PopOutcome.undefinedBehavior ∧
    PopOutcome.undefinedBehavior ≠ PopOutcome.assertFailed := by decide

/-- Witness for claim C9 at a concrete input: a stack whose only
placement covers an unoccupied cell makes popPiece hit the assert. -/
theorem claim_C9_witness :
    (Box.mk 1 1 1 [PieceID.NONE] [⟨oneCellPiece, ⟨0, 0, 0⟩⟩]).popPiece
      = PopOutcome.assertFailed :=
  (claim_C9 (Box.mk 1 1 1 [PieceID.NONE] [⟨oneCellPiece, ⟨0, 0, 0⟩⟩])).2
    ⟨oneCellPiece, ⟨0, 0, 0⟩⟩ [] rfl (by decide)

/-- Every data index below the volume is the linear index of a unique
in-bounds cell (for a box with non-negative dimensions). -/
theorem Box.index_surj (b : Box) (hx : 0 ≤ b.x) (hy : 0 ≤ b.y) (hz : 0 ≤ b.z)
    (n : Nat) (hn : n < b.vol) :
    ∃ c : Position, b.InBounds c ∧ b.index c.x c.y c.z = n := by
  have hprod : (n : Int) < b.x * b.y * b.z := by
    unfold Box.vol at hn
    have h0 : 0 ≤ b.x * b.y * b.z := by positivity
    omega
  have hX : (0 : Int) < b.x := by
    rcases lt_or_eq_of_le hx with h | h
    · exact h
    · exfalso; rw [← h] at hprod; simp at hprod; omega
  have hY : (0 : Int) < b.y := by
    rcases lt_or_eq_of_le hy with h | h
    · exact h
    · exfalso; rw [← h] at hprod; simp at hprod; omega
  have hZ : (0 : Int) < b.z := by
    rcases lt_or_eq_of_le hz with h | h
    · exact h
    · exfalso; rw [← h] at hprod; simp at hprod; omega
  set m : Int := (n : Int) with hm
  have hm0 : 0 ≤ m := Int.ofNat_nonneg n
  refine ⟨⟨m % b.x, (m / b.x) % b.y, (m / b.x) / b.y⟩, ⟨?_, ?_, ?_, ?_, ?_, ?_⟩, ?_⟩
  · exact Int.emod_nonneg m (ne_of_gt hX)
  · exact Int.emod_lt_of_pos m hX
  · exact Int.emod_nonneg _ (ne_of_gt hY)
  · exact Int.emod_lt_of_pos _ hY
  · exact Int.ediv_nonneg (Int.ediv_nonneg hm0 (le_of_lt hX)) (le_of_lt hY)
  · rw [Int.ediv_lt_iff_lt_mul hY, Int.ediv_lt_iff_lt_mul hX]
    calc m < b.x * b.y * b.z := hprod
    _ = b.z * b.y * b.x := by ring
  · have e1 : m % b.x + b.x * (m / b.x) = m := Int.emod_add_ediv m b.x
    have e2 : (m / b.x) % b.y + b.y * ((m / b.x) / b.y) = m / b.x :=
      Int.emod_add_ediv (m / b.x) b.y
    unfold Box.index
    simp only
    have : m % b.x + (m / b.x) % b.y * b.x + (m / b.x) / b.y * b.x * b.y = m := by
      linear_combination e1 + b.x * e2
    rw [this]
    exact Int.toNat_natCast n

/-- Two boxes of the same non-negative dimensions whose in-bounds cells
all agree have identical data arrays. -/
theorem Box.data_ext (b1 b2 : Box)
    (hdx : b1.x = b2.x) (hdy : b1.y = b2.y) (hdz : b1.z = b2.z)
    (hx : 0 ≤ b1.x) (hy : 0 ≤ b1.y) (hz : 0 ≤ b1.z)
    (h1 : b1.DLen) (h2 : b2.DLen)
    (hcell : ∀ d, b1.InBounds d → b1.cellAt d = b2.cellAt d) :
    b1.data = b2.data := by
  have hvol : b1.vol = b2.vol := by
    unfold Box.vol; rw [hdx, hdy, hdz]
  have hlen : b1.data.length = b2.data.length := by
    rw [h1, h2, hvol]
  apply List.ext_getElem?
  intro n
  by_cases hn : n < b1.data.length
  · obtain ⟨c, hcin, hcidx⟩ := b1.index_surj hx hy hz n (by rw [← h1]; exact hn)
    have hc2 : b2.index c.x c.y c.z = n := by
      unfold Box.index at hcidx ⊢
      rw [← hdx, ← hdy]
      exact hcidx
    have hv := hcell c hcin
    unfold Box.cellAt at hv
    rw [hcidx, hc2] at hv
    rw [List.getD_eq_getElem?_getD, List.getD_eq_getElem?_getD,
      List.getElem?_eq_getElem hn, List.getElem?_eq_getElem (hlen ▸ hn),
      Option.getD_some, Option.getD_some] at hv
    rw [List.getElem?_eq_getElem hn, List.getElem?_eq_getElem (hlen ▸ hn), hv]
  · rw [List.getElem?_eq_none (by omega), List.getElem?_eq_none (by omega)]

/-- When every cell of the placement is occupied and the cells are
pairwise distinct, the popPiece loop clears them all and succeeds. -/
theorem Box.popLoop_ok (pos : Position) :
    ∀ (pts : List Point) (b : Box), b.DLen →
    (∀ q ∈ pts, b.InBounds (pos.trans q) ∧ b.Occ (pos.trans q)) →
    (pts.map pos.trans).Nodup →
    b.popLoop pos pts = PopOutcome.ok (commitList pos PieceID.NONE pts b) := by
  intro pts
  induction pts with
  | nil => intro b _ _ _; rfl
  | cons q rest ih =>
    intro b hb hin hnd
    have hq := hin q (List.mem_cons_self q rest)
    unfold Box.popLoop
    have hoccq : b.isOccupied (pos.x + q.x) (pos.y + q.y) (pos.z + q.z) = true :=
      (b.isOccupied_eq_occ (pos.trans q)).mpr hq.2
    rw [if_pos hoccq]
    rw [List.map_cons, List.nodup_cons] at hnd
    have hclr : b.clearOccupied (pos.x + q.x) (pos.y + q.y) (pos.z + q.z)
        = b.setOccupied (pos.trans q).x (pos.trans q).y (pos.trans q).z
          PieceID.NONE := rfl
    have hb1 : (b.clearOccupied (pos.x + q.x) (pos.y + q.y) (pos.z + q.z)).DLen := by
      rw [hclr]; exact b.setOccupied_DLen _ _ _ _ hb
    have hin1 : ∀ r ∈ rest,
        (b.clearOccupied (pos.x + q.x) (pos.y + q.y) (pos.z + q.z)).InBounds
          (pos.trans r) ∧
        (b.clearOccupied (pos.x + q.x) (pos.y + q.y) (pos.z + q.z)).Occ
          (pos.trans r) := by
      intro r hr
      have hrb := hin r (List.mem_cons_of_mem _ hr)
      refine ⟨hrb.1, ?_⟩
      unfold Box.Occ
      rw [hclr, b.cellAt_setOccupied hb (pos.trans q) (pos.trans r) hq.1 hrb.1
        PieceID.NONE]
      rw [if_neg (by
        intro hh
        exact hnd.1 (hh ▸ List.mem_map_of_mem pos.trans hr))]
      exact hrb.2
    rw [ih _ hb1 hin1 hnd.2]
    rfl

/-- Popping right after a successful push of a real piece with distinct
points restores the box exactly. -/
theorem Box.pop_push (b : Box) (hb : b.DLen)
    (hx : 0 ≤ b.x) (hy : 0 ≤ b.y) (hz : 0 ≤ b.z)
    (p : Piece) (pos : Position)
    (hid : p.id ≠ PieceID.NONE) (hnd : p.points.Nodup)
    (hcan : b.canPush p pos = true) :
    (b.tryPushPieceTo p pos).2.popPiece = PopOutcome.ok b := by
  have hcells := (b.canPush_iff p pos).mp hcan
  have hb2 : (b.tryPushPieceTo p pos).2.DLen := b.pushed_DLen p pos hb hcan
  have hndc : (p.points.map pos.trans).Nodup :=
    List.Nodup.map (Position.trans_inj pos) hnd
  have hpieces : (b.tryPushPieceTo p pos).2.pieces = ⟨p, pos⟩ :: b.pieces :=
    b.pushed_pieces p pos hcan
  have hin2 : ∀ q ∈ p.points,
      (b.tryPushPieceTo p pos).2.InBounds (pos.trans q) ∧
      (b.tryPushPieceTo p pos).2.Occ (pos.trans q) := by
    intro q hq
    have hmem : pos.trans q ∈ cellsOf p pos := by
      rw [cellsOf_eq_map]; exact List.mem_map_of_mem _ hq
    have hcq := hcells (pos.trans q) hmem
    constructor
    · exact (b.pushed_InBounds p pos hcan _).mpr hcq.1
    · unfold Box.Occ
      rw [b.pushed_cellAt p pos hb hcan _ hcq.1, if_pos hmem]
      exact hid
  have hloop := Box.popLoop_ok pos p.points (b.tryPushPieceTo p pos).2
    hb2 hin2 hndc
  unfold Box.popPiece
  rw [hpieces]
  simp only [hloop]
  have hfinal : ({ commitList pos PieceID.NONE p.points (b.tryPushPieceTo p pos).2
      with pieces := b.pieces } : Box) = b := by
    have hcx : (commitList pos PieceID.NONE p.points
        (b.tryPushPieceTo p pos).2).x = b.x := by
      rw [commitList_x]; exact b.pushed_x p pos hcan
    have hcy : (commitList pos PieceID.NONE p.points
        (b.tryPushPieceTo p pos).2).y = b.y := by
      rw [commitList_y]; exact b.pushed_y p pos hcan
    have hcz : (commitList pos PieceID.NONE p.points
        (b.tryPushPieceTo p pos).2).z = b.z := by
      rw [commitList_z]; exact b.pushed_z p pos hcan
    have hdata : (commitList pos PieceID.NONE p.points
        (b.tryPushPieceTo p pos).2).data = b.data := by
      apply Box.data_ext
      · exact hcx
      · exact hcy
      · exact hcz
      · rw [hcx]; exact hx
      · rw [hcy]; exact hy
      · rw [hcz]; exact hz
      · exact commitList_DLen pos PieceID.NONE p.points _ hb2
      · exact hb
      · intro d hd
        have hdb : b.InBounds d := by
          have := (commitList_InBounds pos PieceID.NONE p.points
            (b.tryPushPieceTo p pos).2 d).mp hd
          exact (b.pushed_InBounds p pos hcan d).mp this
        have hd2 : (b.tryPushPieceTo p pos).2.InBounds d :=
          (b.pushed_InBounds p pos hcan d).mpr hdb
        have hin2' : ∀ q ∈ p.points,
            (b.tryPushPieceTo p pos).2.InBounds (pos.trans q) :=
          fun q hq => (hin2 q hq).1
        rw [commitList_cellAt pos PieceID.NONE p.points _ hb2 hin2' d hd2]
        rw [b.pushed_cellAt p pos hb hcan d hdb]
        by_cases hdc : d ∈ p.points.map pos.trans
        · rw [if_pos hdc]
          have hun := hcells d (by rw [cellsOf_eq_map]; exact hdc)
          unfold Box.Occ at hun
          exact (not_not.mp hun.2).symm
        · rw [if_neg hdc, if_neg (by rw [cellsOf_eq_map]; exact hdc)]
    calc ({ commitList pos PieceID.NONE p.points (b.tryPushPieceTo p pos).2
        with pieces := b.pieces } : Box)
        = ⟨(commitList pos PieceID.NONE p.points (b.tryPushPieceTo p pos).2).x,
           (commitList pos PieceID.NONE p.points (b.tryPushPieceTo p pos).2).y,
           (commitList pos PieceID.NONE p.points (b.tryPushPieceTo p pos).2).z,
           (commitList pos PieceID.NONE p.points (b.tryPushPieceTo p pos).2).data,
           b.pieces⟩ := rfl
    _ = b := by rw [hcx, hcy, hcz, hdata]
  rw [hfinal]

/-- A sequence of tryPushPieceTo calls; none when some push fails. -/
def pushSeq : List (Piece × Position) → Box → Option Box
  | [], b => some b
  | pr :: rest, b =>
      let res := b.tryPushPieceTo pr.1 pr.2
      if res.1 then pushSeq rest res.2 else none

/-- A sequence of popPiece calls; none when some pop underflows or hits
the assert. -/
def popSeq : Nat → Box → Option Box
  | 0, b => some b
  | Nat.succ k, b =>
      match b.popPiece with
      | PopOutcome.ok b2 => popSeq k b2
      | _ => none

theorem popSeq_succ_back : ∀ (k : Nat) (b : Box),
    popSeq (Nat.succ k) b = (popSeq k b).bind
      (fun bb => match bb.popPiece with
        | PopOutcome.ok b2 => some b2
        | _ => none) := by
  intro k
  induction k with
  | zero => intro b; cases h : b.popPiece <;> simp [popSeq, h]
  | succ k ih =>
    intro b
    cases h : b.popPiece with
    | ok b2 =>
      have e1 : popSeq (Nat.succ (Nat.succ k)) b = popSeq (Nat.succ k) b2 := by
        show (match b.popPiece with
          | PopOutcome.ok b2 => popSeq (Nat.succ k) b2
          | _ => none) = popSeq (Nat.succ k) b2
        rw [h]
      have e2 : popSeq (Nat.succ k) b = popSeq k b2 := by
        show (match b.popPiece with
          | PopOutcome.ok b2 => popSeq k b2
          | _ => none) = popSeq k b2
        rw [h]
      rw [e1, e2]
      exact ih b2
    | assertFailed =>
      have e1 : popSeq (Nat.succ (Nat.succ k)) b = none := by
        show (match b.popPiece with
          | PopOutcome.ok b2 => popSeq (Nat.succ k) b2
          | _ => none) = none
        rw [h]
      have e2 : popSeq (Nat.succ k) b = none := by
        show (match b.popPiece with
          | PopOutcome.ok b2 => popSeq k b2
          | _ => none) = none
        rw [h]
      rw [e1, e2]
      rfl
    | undefinedBehavior =>
      have e1 : popSeq (Nat.succ (Nat.succ k)) b = none := by
        show (match b.popPiece with
          | PopOutcome.ok b2 => popSeq (Nat.succ k) b2
          | _ => none) = none
        rw [h]
      have e2 : popSeq (Nat.succ k) b = none := by
        show (match b.popPiece with
          | PopOutcome.ok b2 => popSeq k b2
          | _ => none) = none
        rw [h]
      rw [e1, e2]
      rfl

/-- Claim C4 (amended): for pieces with a real (non-NONE) id and
duplicate-free point lists, any sequence of successful pushes followed by
the same number of pops restores the box, grid and placement stack,
exactly.  (The unamended claim fails for a piece whose id is NONE: its
push succeeds but writes the empty marker, so the following pop trips the
occupancy assert instead of restoring the box.) -/
theorem claim_C4 (b : Box) (hb : b.DLen)
    (hx : 0 ≤ b.x) (hy : 0 ≤ b.y) (hz : 0 ≤ b.z)
    (ps : List (Piece × Position))
    (hps : ∀ pr ∈ ps, pr.1.id ≠ PieceID.NONE ∧ pr.1.points.Nodup)
    (b' : Box) (hpush : pushSeq ps b = some b') :
    popSeq ps.length b' = some b := by
  induction ps generalizing b with
  | nil =>
    unfold pushSeq at hpush
    injection hpush with hbb
    subst hbb
    rfl
  | cons pr rest ih =>
    unfold pushSeq at hpush
    by_cases hres : (b.tryPushPieceTo pr.1 pr.2).1 = true
    · rw [if_pos hres] at hpush
      have hcan : b.canPush pr.1 pr.2 = true := by
        rw [← b.tryPush_fst]; exact hres
      have hpr := hps pr (List.mem_cons_self pr rest)
      have hb1 : (b.tryPushPieceTo pr.1 pr.2).2.DLen :=
        b.pushed_DLen pr.1 pr.2 hb hcan
      have hx1 : 0 ≤ (b.tryPushPieceTo pr.1 pr.2).2.x := by
        rw [b.pushed_x pr.1 pr.2 hcan]; exact hx
      have hy1 : 0 ≤ (b.tryPushPieceTo pr.1 pr.2).2.y := by
        rw [b.pushed_y pr.1 pr.2 hcan]; exact hy
      have hz1 : 0 ≤ (b.tryPushPieceTo pr.1 pr.2).2.z := by
        rw [b.pushed_z pr.1 pr.2 hcan]; exact hz
      have hrec := ih (b.tryPushPieceTo pr.1 pr.2).2 hb1 hx1 hy1 hz1
        (fun q hq => hps q (List.mem_cons_of_mem pr hq)) hpush
      rw [List.length_cons, popSeq_succ_back, hrec]
      simp only [Option.some_bind]
      rw [b.pop_push hb hx hy hz pr.1 pr.2 hpr.1 hpr.2 hcan]
    · rw [if_neg hres] at hpush
      exact absurd hpush (by simp)

/-- A concrete piece carrying the empty marker NONE as its id. -/
def nonePiece : Piece := ⟨.NONE, [⟨0, 0, 0⟩], ⟨1, 1, 1⟩⟩

/-- Counterexample to claim C4 as stated: pushing a piece whose id is the
NONE marker succeeds, but the pop that should undo it hits the fatal
assert (the cells were written with the empty marker), so the sequence
does not restore the box. -/
theorem claim_C4_counterexample :
    ((Box.make 1 1 1).tryPushPieceTo nonePiece ⟨0, 0, 0⟩).1 = true ∧
    popSeq 1 ((Box.make 1 1 1).tryPushPieceTo nonePiece ⟨0, 0, 0⟩).2 = none ∧
    ((Box.make 1 1 1).tryPushPieceTo nonePiece ⟨0, 0, 0⟩).2.popPiece
      = PopOutcome.assertFailed := by decide

/-- Witness for claim C4 at a concrete input: one push then one pop on a
1 by 1 by 1 box restores the empty box. -/
theorem claim_C4_witness :
    popSeq 1 ⟨1, 1, 1, [PieceID.H7], [⟨oneCellPiece, ⟨0, 0, 0⟩⟩]⟩
      = some (Box.make 1 1 1) :=
  claim_C4 (Box.make 1 1 1) (by decide) (by decide) (by decide) (by decide)
    [(oneCellPiece, ⟨0, 0, 0⟩)] (by decide)
    ⟨1, 1, 1, [PieceID.H7], [⟨oneCellPiece, ⟨0, 0, 0⟩⟩]⟩ (by decide)

/-- Every index the hasDupIDPiece loop reads comes from the id of some
stacked piece. -/
theorem hasDupIndices_go_sub :
    ∀ (l : List PiecePos) (seen : List Nat) (i : Nat),
      i ∈ Box.hasDupIndices.go seen l → ∃ pp ∈ l, i = pp.piece.id.toNat := by
  intro l
  induction l with
  | nil => intro seen i h; simp [Box.hasDupIndices.go] at h
  | cons pp rest ih =>
    intro seen i h
    unfold Box.hasDupIndices.go at h
    by_cases hs : pp.piece.id.toNat ∈ seen
    · rw [if_pos hs] at h
      simp only [List.mem_singleton] at h
      exact ⟨pp, List.mem_cons_self pp rest, h⟩
    · rw [if_neg hs] at h
      rcases List.mem_cons.mp h with rfl | h2
      · exact ⟨pp, List.mem_cons_self pp rest, rfl⟩
      · obtain ⟨qq, hqq, hi⟩ := ih _ i h2
        exact ⟨qq, List.mem_cons_of_mem _ hqq, hi⟩

/-- Claim C10 (amended): the indices hasDupIDPiece reads in its 7-element
boolean array are in bounds exactly when every stacked piece's id value is
at most 6 (ids NONE through U5); the catalog ids N5 through L4 have values
7 through 13 and index out of bounds. -/
theorem claim_C10 (b : Box)
    (hids : ∀ pp ∈ b.pieces, pp.piece.id.toNat ≤ 6) :
    ∀ i ∈ b.hasDupIndices, i < 7 := by
  intro i hi
  obtain ⟨pp, hpp, hieq⟩ := hasDupIndices_go_sub b.pieces.reverse [] i hi
  have := hids pp (List.mem_reverse.mp hpp)
  omega

/-- A concrete piece with id L4 (the last catalog entry, enum value 13). -/
def l4Piece : Piece :=
  ⟨.L4, [⟨0, 0, 0⟩, ⟨0, 1, 0⟩, ⟨0, 2, 0⟩, ⟨1, 0, 0⟩], ⟨2, 3, 1⟩⟩

/-- Counterexample to claim C10 as stated: a stack holding the catalog
piece L4 makes hasDupIDPiece read index 13 of its 7-element array. -/
theorem claim_C10_counterexample :
    PieceID.L4 ∈ pieceCatalog ∧
    (Box.mk 2 3 1 [] [⟨l4Piece, ⟨0, 0, 0⟩⟩]).hasDupIndices = [13] ∧
    ¬ (13 : Nat) < 7 := by decide

/-- A concrete piece with id U5 (enum value 6). -/
def u5Piece : Piece := ⟨.U5, [⟨0, 0, 0⟩], ⟨1, 1, 1⟩⟩

/-- Witness for claim C10 at a concrete input: a stack holding only a U5
piece reads index 6, which is in bounds. -/
theorem claim_C10_witness : (6 : Nat) < 7 :=
  claim_C10 (Box.mk 1 1 1 [] [⟨u5Piece, ⟨0, 0, 0⟩⟩]) (by decide) 6 (by decide)

theorem Position.scanLt_irrefl (a : Position) : ¬ Position.scanLt a a := by
  simp [Position.scanLt]

theorem Position.scanLt_trans {a b c : Position} :
    Position.scanLt a b → Position.scanLt b c → Position.scanLt a c := by
  rcases a with ⟨ax, ay, az⟩
  rcases b with ⟨bx, by', bz⟩
  rcases c with ⟨cx, cy, cz⟩
  intro h1 h2
  simp only [Position.scanLt] at h1 h2 ⊢
  rcases h1 with h1 | ⟨e1, h1⟩ | ⟨e1, e1', h1⟩ <;>
    rcases h2 with h2 | ⟨e2, h2⟩ | ⟨e2, e2', h2⟩ <;> omega

theorem Position.scanLt_asymm {a b : Position} :
    Position.scanLt a b → ¬ Position.scanLt b a := fun h1 h2 =>
  Position.scanLt_irrefl a (Position.scanLt_trans h1 h2)

theorem Box.mem_zRow (b : Box) (ix iy : Nat) (c : Position) :
    c ∈ b.zRow ix iy ↔
      ∃ iz : Nat, iz < b.z.toNat ∧ c = ⟨(ix : Int), (iy : Int), (iz : Int)⟩ := by
  unfold Box.zRow
  simp only [List.mem_map, List.mem_range]
  constructor
  · rintro ⟨iz, hiz, rfl⟩; exact ⟨iz, hiz, rfl⟩
  · rintro ⟨iz, hiz, rfl⟩; exact ⟨iz, hiz, rfl⟩

theorem Box.mem_yPlane (b : Box) (ix : Nat) (c : Position) :
    c ∈ b.yPlane ix ↔
      ∃ iy : Nat, iy < b.y.toNat ∧ ∃ iz : Nat, iz < b.z.toNat ∧
        c = ⟨(ix : Int), (iy : Int), (iz : Int)⟩ := by
  unfold Box.yPlane
  simp only [List.mem_flatMap, List.mem_range]
  constructor
  · rintro ⟨iy, hiy, hmem⟩
    obtain ⟨iz, hiz, rfl⟩ := (b.mem_zRow ix iy c).mp hmem
    exact ⟨iy, hiy, iz, hiz, rfl⟩
  · rintro ⟨iy, hiy, iz, hiz, rfl⟩
    exact ⟨iy, hiy, (b.mem_zRow ix iy _).mpr ⟨iz, hiz, rfl⟩⟩

/-- Membership in the scan enumeration is exactly in-bounds. -/
theorem Box.mem_allCells (b : Box) (c : Position) :
    c ∈ b.allCells ↔ b.InBounds c := by
  unfold Box.allCells
  simp only [List.mem_flatMap, List.mem_range]
  constructor
  · rintro ⟨ix, hix, hmem⟩
    obtain ⟨iy, hiy, iz, hiz, rfl⟩ := (b.mem_yPlane ix c).mp hmem
    exact ⟨Int.ofNat_nonneg ix, Int.lt_toNat.mp hix,
      Int.ofNat_nonneg iy, Int.lt_toNat.mp hiy,
      Int.ofNat_nonneg iz, Int.lt_toNat.mp hiz⟩
  · intro hin
    obtain ⟨h1, h2, h3, h4, h5, h6⟩ := hin
    refine ⟨c.x.toNat, Int.lt_toNat.mpr (by rwa [Int.toNat_of_nonneg h1]), ?_⟩
    refine (b.mem_yPlane c.x.toNat c).mpr
      ⟨c.y.toNat, Int.lt_toNat.mpr (by rwa [Int.toNat_of_nonneg h3]),
       c.z.toNat, Int.lt_toNat.mpr (by rwa [Int.toNat_of_nonneg h5]), ?_⟩
    cases c
    simp only [Position.mk.injEq]
    refine ⟨(Int.toNat_of_nonneg h1).symm, (Int.toNat_of_nonneg h3).symm,
      (Int.toNat_of_nonneg h5).symm⟩

theorem Box.zRow_sorted (b : Box) (ix iy : Nat) :
    (b.zRow ix iy).Pairwise Position.scanLt := by
  unfold Box.zRow
  rw [List.pairwise_map]
  apply List.Pairwise.imp ?_ (List.pairwise_lt_range b.z.toNat)
  intro a c h
  exact Or.inr (Or.inr ⟨rfl, rfl, Int.ofNat_lt.mpr h⟩)

theorem Box.yPlane_sorted (b : Box) (ix : Nat) :
    (b.yPlane ix).Pairwise Position.scanLt := by
  unfold Box.yPlane
  rw [List.pairwise_flatMap]
  constructor
  · intro iy _
    exact b.zRow_sorted ix iy
  · apply List.Pairwise.imp ?_ (List.pairwise_lt_range b.y.toNat)
    intro iy1 iy2 h c1 hc1 c2 hc2
    obtain ⟨iz1, _, rfl⟩ := (b.mem_zRow ix iy1 c1).mp hc1
    obtain ⟨iz2, _, rfl⟩ := (b.mem_zRow ix iy2 c2).mp hc2
    exact Or.inr (Or.inl ⟨rfl, Int.ofNat_lt.mpr h⟩)

/-- The scan enumeration is strictly increasing in the row-major order. -/
theorem Box.allCells_sorted (b : Box) :
    b.allCells.Pairwise Position.scanLt := by
  unfold Box.allCells
  rw [List.pairwise_flatMap]
  constructor
  · intro ix _
    exact b.yPlane_sorted ix
  · apply List.Pairwise.imp ?_ (List.pairwise_lt_range b.x.toNat)
    intro ix1 ix2 h c1 hc1 c2 hc2
    obtain ⟨iy1, _, iz1, _, rfl⟩ := (b.mem_yPlane ix1 c1).mp hc1
    obtain ⟨iy2, _, iz2, _, rfl⟩ := (b.mem_yPlane ix2 c2).mp hc2
    exact Or.inl (Int.ofNat_lt.mpr h)

/-- find? on a strictly sorted list returns an element every strictly
smaller member fails the predicate on. -/
theorem find?_sorted_spec (p : Position → Bool) :
    ∀ (l : List Position), l.Pairwise Position.scanLt →
    ∀ c, l.find? p = some c →
      c ∈ l ∧ p c = true ∧ ∀ d ∈ l, Position.scanLt d c → p d = false := by
  intro l
  induction l with
  | nil => intro _ c h; simp at h
  | cons a t ih =>
    intro hsort c h
    rw [List.pairwise_cons] at hsort
    rw [List.find?_cons] at h
    by_cases hpa : p a = true
    · rw [hpa] at h
      simp only [Option.some_inj] at h
      subst h
      refine ⟨List.mem_cons_self a t, hpa, ?_⟩
      intro d hd hdc
      rcases List.mem_cons.mp hd with rfl | hdt
      · exact absurd hdc (Position.scanLt_irrefl d)
      · exact absurd hdc (Position.scanLt_asymm (hsort.1 d hdt))
    · rw [Bool.not_eq_true] at hpa
      rw [hpa] at h
      obtain ⟨hc1, hc2, hc3⟩ := ih hsort.2 c h
      refine ⟨List.mem_cons_of_mem a hc1, hc2, ?_⟩
      intro d hd hdc
      rcases List.mem_cons.mp hd with rfl | hdt
      · exact hpa
      · exact hc3 d hdt hdc

/-- Claim C8: findFirstEmptyCell (whose start position, in the source as
written, is always the box origin) returns the first empty cell in
row-major x-outer, y-middle, z-inner order, or the sentinel (-1,-1,-1)
when no empty cell exists; the returned cell never precedes the origin in
that order. -/
theorem claim_C8 (b : Box) :
    (b.findFirstEmptyCell = ⟨-1, -1, -1⟩ → ∀ c, b.InBounds c → b.Occ c) ∧
    (b.findFirstEmptyCell ≠ ⟨-1, -1, -1⟩ →
      b.InBounds b.findFirstEmptyCell ∧ ¬ b.Occ b.findFirstEmptyCell ∧
      (∀ d, b.InBounds d → Position.scanLt d b.findFirstEmptyCell → b.Occ d) ∧
      ¬ Position.scanLt b.findFirstEmptyCell ⟨0, 0, 0⟩) := by
  rcases hf : b.allCells.find? (fun c => !b.isOccupied c.x c.y c.z) with _ | c
  · have hr : b.findFirstEmptyCell = ⟨-1, -1, -1⟩ := by
      unfold Box.findFirstEmptyCell
      rw [hf]
    constructor
    · intro _ c hc
      have := List.find?_eq_none.mp hf c ((b.mem_allCells c).mpr hc)
      simp only [Bool.not_eq_true', Bool.not_eq_false] at this
      exact (b.isOccupied_eq_occ c).mp this
    · intro h
      exact absurd hr h
  · have hr : b.findFirstEmptyCell = c := by
      unfold Box.findFirstEmptyCell
      rw [hf]
    obtain ⟨hc1, hc2, hc3⟩ :=
      find?_sorted_spec _ b.allCells (b.allCells_sorted) c hf
    have hcin : b.InBounds c := (b.mem_allCells c).mp hc1
    have hcx : 0 ≤ c.x := hcin.1
    rw [hr]
    constructor
    · intro h
      exfalso
      rw [h] at hcx
      exact absurd hcx (by decide)
    · intro _
      refine ⟨hcin, ?_, ?_, ?_⟩
      · intro hocc
        rw [Bool.not_eq_true'] at hc2
        rw [← b.isOccupied_eq_occ c] at hocc
        rw [hc2] at hocc
        exact absurd hocc (by simp)
      · intro d hd hdc
        have hfd := hc3 d ((b.mem_allCells d).mpr hd) hdc
        have hfd2 : b.isOccupied d.x d.y d.z = true := by simpa using hfd
        exact (b.isOccupied_eq_occ d).mp hfd2
      · intro hlt
        obtain ⟨g1, _, g3, _, g5, _⟩ := hcin
        rcases hlt with h | ⟨_, h⟩ | ⟨_, _, h⟩ <;> simp only at h <;> omega

/-- Witness for claim C8 at a concrete input: the scan of an empty
1 by 1 by 1 box returns an in-bounds (hence non-sentinel) cell. -/
theorem claim_C8_witness :
    (Box.make 1 1 1).InBounds (Box.make 1 1 1).findFirstEmptyCell :=
  ((claim_C8 (Box.make 1 1 1)).2 (by decide)).1

theorem foldl_min_le_init (f : Point → Int) :
    ∀ (l : List Point) (a : Int), l.foldl (fun m q => min m (f q)) a ≤ a := by
  intro l
  induction l with
  | nil => intro a; simp
  | cons p rest ih =>
    intro a
    calc (p :: rest).foldl (fun m q => min m (f q)) a
        = rest.foldl (fun m q => min m (f q)) (min a (f p)) := rfl
    _ ≤ min a (f p) := ih _
    _ ≤ a := min_le_left _ _

theorem foldl_min_le_mem (f : Point → Int) :
    ∀ (l : List Point) (a : Int) (q : Point), q ∈ l →
      l.foldl (fun m q => min m (f q)) a ≤ f q := by
  intro l
  induction l with
  | nil => intro a q h; simp at h
  | cons p rest ih =>
    intro a q h
    rcases List.mem_cons.mp h with rfl | h2
    · calc (q :: rest).foldl (fun m r => min m (f r)) a
          = rest.foldl (fun m r => min m (f r)) (min a (f q)) := rfl
      _ ≤ min a (f q) := foldl_min_le_init f rest _
      _ ≤ f q := min_le_right _ _
    · exact ih (min a (f p)) q h2

theorem foldl_min_attained (f : Point → Int) :
    ∀ (l : List Point) (a : Int),
      l.foldl (fun m q => min m (f q)) a = a ∨
      ∃ q ∈ l, l.foldl (fun m q => min m (f q)) a = f q := by
  intro l
  induction l with
  | nil => intro a; left; rfl
  | cons p rest ih =>
    intro a
    have hstep : (p :: rest).foldl (fun m q => min m (f q)) a
        = rest.foldl (fun m q => min m (f q)) (min a (f p)) := rfl
    rcases ih (min a (f p)) with h | ⟨q, hq, h⟩
    · rcases le_total a (f p) with hle | hle
      · left; rw [hstep, h]; exact min_eq_left hle
      · right
        exact ⟨p, List.mem_cons_self p rest, by rw [hstep, h]; exact min_eq_right hle⟩
    · right
      exact ⟨q, List.mem_cons_of_mem p hq, by rw [hstep]; exact h⟩

theorem clampedMin_le (f : Point → Int) (pts : List Point) :
    ∀ q ∈ pts, clampedMin f pts ≤ f q :=
  fun q hq => foldl_min_le_mem f pts 0 q hq

theorem clampedMin_nonpos (f : Point → Int) (pts : List Point) :
    clampedMin f pts ≤ 0 :=
  foldl_min_le_init f pts 0

theorem clampedMin_attained (f : Point → Int) (pts : List Point) :
    clampedMin f pts = 0 ∨ ∃ q ∈ pts, clampedMin f pts = f q :=
  foldl_min_attained f pts 0

theorem mem_normalizePts (pts : List Point) (q : Point) :
    q ∈ normalizePts pts ↔
      q ∈ pts.map fun r => (⟨r.x - clampedMin (·.x) pts,
        r.y - clampedMin (·.y) pts, r.z - clampedMin (·.z) pts⟩ : Point) := by
  unfold normalizePts
  exact (List.perm_insertionSort Point.le _).mem_iff

/-- The canonical-minimum property: all coordinates non-negative and a
zero attained on each axis. -/
def MinsAt0 (pts : List Point) : Prop :=
  (∀ q ∈ pts, 0 ≤ q.x ∧ 0 ≤ q.y ∧ 0 ≤ q.z) ∧
  (∃ q ∈ pts, q.x = 0) ∧ (∃ q ∈ pts, q.y = 0) ∧ (∃ q ∈ pts, q.z = 0)

instance : ∀ pts : List Point, Decidable (MinsAt0 pts) := fun pts => by
  unfold MinsAt0; infer_instance

theorem normalizePts_sorted (pts : List Point) :
    (normalizePts pts).Sorted Point.le :=
  List.sorted_insertionSort Point.le _

/-- If every axis of the input attains a non-positive coordinate, the
normalized point sequence has all minima at zero (the clamp at zero in
Piece::normalize is then inactive). -/
theorem normalizePts_minsAt0 (pts : List Point)
    (hx : ∃ q ∈ pts, q.x ≤ 0) (hy : ∃ q ∈ pts, q.y ≤ 0)
    (hz : ∃ q ∈ pts, q.z ≤ 0) :
    MinsAt0 (normalizePts pts) := by
  have hbx := clampedMin_le (·.x) pts
  have hby := clampedMin_le (·.y) pts
  have hbz := clampedMin_le (·.z) pts
  refine ⟨?_, ?_, ?_, ?_⟩
  · intro q hq
    rw [mem_normalizePts, List.mem_map] at hq
    obtain ⟨r, hr, rfl⟩ := hq
    refine ⟨by have := hbx r hr; simp only at this ⊢; omega,
      by have := hby r hr; simp only at this ⊢; omega,
      by have := hbz r hr; simp only at this ⊢; omega⟩
  · rcases clampedMin_attained (·.x) pts with h | ⟨q0, hq0, h⟩
    · obtain ⟨q1, hq1, hle⟩ := hx
      have hge := hbx q1 hq1
      refine ⟨⟨q1.x - clampedMin (·.x) pts, q1.y - clampedMin (·.y) pts,
        q1.z - clampedMin (·.z) pts⟩,
        (mem_normalizePts pts _).mpr (List.mem_map_of_mem _ hq1), ?_⟩
      simp only at h hge ⊢
      omega
    · have hge := hbx q0 hq0
      refine ⟨⟨q0.x - clampedMin (·.x) pts, q0.y - clampedMin (·.y) pts,
        q0.z - clampedMin (·.z) pts⟩,
        (mem_normalizePts pts _).mpr (List.mem_map_of_mem _ hq0), ?_⟩
      simp only at h hge ⊢
      omega
  · rcases clampedMin_attained (·.y) pts with h | ⟨q0, hq0, h⟩
    · obtain ⟨q1, hq1, hle⟩ := hy
      have hge := hby q1 hq1
      refine ⟨⟨q1.x - clampedMin (·.x) pts, q1.y - clampedMin (·.y) pts,
        q1.z - clampedMin (·.z) pts⟩,
        (mem_normalizePts pts _).mpr (List.mem_map_of_mem _ hq1), ?_⟩
      simp only at h hge ⊢
      omega
    · have hge := hby q0 hq0
      refine ⟨⟨q0.x - clampedMin (·.x) pts, q0.y - clampedMin (·.y) pts,
        q0.z - clampedMin (·.z) pts⟩,
        (mem_normalizePts pts _).mpr (List.mem_map_of_mem _ hq0), ?_⟩
      simp only at h hge ⊢
      omega
  · rcases clampedMin_attained (·.z) pts with h | ⟨q0, hq0, h⟩
    · obtain ⟨q1, hq1, hle⟩ := hz
      have hge := hbz q1 hq1
      refine ⟨⟨q1.x - clampedMin (·.x) pts, q1.y - clampedMin (·.y) pts,
        q1.z - clampedMin (·.z) pts⟩,
        (mem_normalizePts pts _).mpr (List.mem_map_of_mem _ hq1), ?_⟩
      simp only at h hge ⊢
      omega
    · have hge := hbz q0 hq0
      refine ⟨⟨q0.x - clampedMin (·.x) pts, q0.y - clampedMin (·.y) pts,
        q0.z - clampedMin (·.z) pts⟩,
        (mem_normalizePts pts _).mpr (List.mem_map_of_mem _ hq0), ?_⟩
      simp only at h hge ⊢
      omega

/-- A set with minima at zero keeps a non-positive minimum on every axis
under each of the three rotation formulas, so the clamp in the following
normalize is inactive. -/
theorem rotZ_minsLE (pts : List Point) (h : MinsAt0 pts) :
    (∃ q ∈ pts.map rotZpt, q.x ≤ 0) ∧ (∃ q ∈ pts.map rotZpt, q.y ≤ 0) ∧
    (∃ q ∈ pts.map rotZpt, q.z ≤ 0) := by
  obtain ⟨hall, ⟨qx, hqx, hqx0⟩, ⟨qy, hqy, hqy0⟩, ⟨qz, hqz, hqz0⟩⟩ := h
  refine ⟨⟨rotZpt qy, List.mem_map_of_mem _ hqy, ?_⟩,
    ⟨rotZpt qx, List.mem_map_of_mem _ hqx, ?_⟩,
    ⟨rotZpt qz, List.mem_map_of_mem _ hqz, ?_⟩⟩
  · simp [rotZpt, hqy0]
  · simp only [rotZpt]
    have := (hall qx hqx).1
    omega
  · simp [rotZpt, hqz0]

theorem rotX_minsLE (pts : List Point) (h : MinsAt0 pts) :
    (∃ q ∈ pts.map rotXpt, q.x ≤ 0) ∧ (∃ q ∈ pts.map rotXpt, q.y ≤ 0) ∧
    (∃ q ∈ pts.map rotXpt, q.z ≤ 0) := by
  obtain ⟨hall, ⟨qx, hqx, hqx0⟩, ⟨qy, hqy, hqy0⟩, ⟨qz, hqz, hqz0⟩⟩ := h
  refine ⟨⟨rotXpt qx, List.mem_map_of_mem _ hqx, ?_⟩,
    ⟨rotXpt qz, List.mem_map_of_mem _ hqz, ?_⟩,
    ⟨rotXpt qy, List.mem_map_of_mem _ hqy, ?_⟩⟩
  · simp [rotXpt, hqx0]
  · simp [rotXpt, hqz0]
  · simp only [rotXpt]
    have := (hall qy hqy).2.1
    omega

theorem rotY_minsLE (pts : List Point) (h : MinsAt0 pts) :
    (∃ q ∈ pts.map rotYpt, q.x ≤ 0) ∧ (∃ q ∈ pts.map rotYpt, q.y ≤ 0) ∧
    (∃ q ∈ pts.map rotYpt, q.z ≤ 0) := by
  obtain ⟨hall, ⟨qx, hqx, hqx0⟩, ⟨qy, hqy, hqy0⟩, ⟨qz, hqz, hqz0⟩⟩ := h
  refine ⟨⟨rotYpt qz, List.mem_map_of_mem _ hqz, ?_⟩,
    ⟨rotYpt qy, List.mem_map_of_mem _ hqy, ?_⟩,
    ⟨rotYpt qx, List.mem_map_of_mem _ hqx, ?_⟩⟩
  · simp [rotYpt, hqz0]
  · simp [rotYpt, hqy0]
  · simp only [rotYpt]
    have := (hall qx hqx).1
    omega

/-- Claim C5 (amended): the stored point sequence is sorted after
construction and after every rotation; the per-axis minima are all zero
after construction provided every axis of the input attains a
non-positive coordinate (the fold in Piece::normalize starts at 0, so an
axis whose input coordinates are all positive keeps its positive
minimum); and once the minima are zero, every rotateX/rotateY/rotateZ
keeps them zero. -/
theorem claim_C5 (id : PieceID) (pts : List Point)
    (hx : ∃ q ∈ pts, q.x ≤ 0) (hy : ∃ q ∈ pts, q.y ≤ 0)
    (hz : ∃ q ∈ pts, q.z ≤ 0) :
    ((Piece.make id pts).points.Sorted Point.le ∧
      MinsAt0 (Piece.make id pts).points) ∧
    (∀ p : Piece, MinsAt0 p.points →
      (p.rotateX.points.Sorted Point.le ∧ MinsAt0 p.rotateX.points) ∧
      (p.rotateY.points.Sorted Point.le ∧ MinsAt0 p.rotateY.points) ∧
      (p.rotateZ.points.Sorted Point.le ∧ MinsAt0 p.rotateZ.points)) := by
  constructor
  · exact ⟨normalizePts_sorted pts, normalizePts_minsAt0 pts hx hy hz⟩
  · intro p hp
    obtain ⟨ex1, ex2, ex3⟩ := rotX_minsLE p.points hp
    obtain ⟨ey1, ey2, ey3⟩ := rotY_minsLE p.points hp
    obtain ⟨ez1, ez2, ez3⟩ := rotZ_minsLE p.points hp
    exact ⟨⟨normalizePts_sorted _, normalizePts_minsAt0 _ ex1 ex2 ex3⟩,
      ⟨normalizePts_sorted _, normalizePts_minsAt0 _ ey1 ey2 ey3⟩,
      ⟨normalizePts_sorted _, normalizePts_minsAt0 _ ez1 ez2 ez3⟩⟩

/-- Counterexample to claim C5 as stated: a piece built from the single
all-positive point (1,1,1) is stored untranslated, so no stored minimum
is zero (normalize's fold starts at 0 and never translates an
all-positive axis). -/
theorem claim_C5_counterexample :
    (Piece.make .H7 [⟨1, 1, 1⟩]).points = [⟨1, 1, 1⟩] ∧
    ¬ MinsAt0 (Piece.make .H7 [⟨1, 1, 1⟩]).points := by decide

/-- Witness for claim C5 at a concrete input: a two-point piece touching
the origin is sorted with minima zero after construction. -/
theorem claim_C5_witness :
    (Piece.make .O4 [⟨1, 0, 0⟩, ⟨0, 0, 0⟩]).points.Sorted Point.le ∧
    MinsAt0 (Piece.make .O4 [⟨1, 0, 0⟩, ⟨0, 0, 0⟩]).points :=
  (claim_C5 .O4 [⟨1, 0, 0⟩, ⟨0, 0, 0⟩]
    ⟨⟨0, 0, 0⟩, by decide, by decide⟩
    ⟨⟨0, 0, 0⟩, by decide, by decide⟩
    ⟨⟨0, 0, 0⟩, by decide, by decide⟩).1

/-- Componentwise point subtraction. -/
def psub (a b : Point) : Point := ⟨a.x - b.x, a.y - b.y, a.z - b.z⟩

/-- Every axis attains a non-positive coordinate. -/
def AxLE (pts : List Point) : Prop :=
  (∃ q ∈ pts, q.x ≤ 0) ∧ (∃ q ∈ pts, q.y ≤ 0) ∧ (∃ q ∈ pts, q.z ≤ 0)

/-- Every axis attains a non-negative coordinate. -/
def AxGE (pts : List Point) : Prop :=
  (∃ q ∈ pts, 0 ≤ q.x) ∧ (∃ q ∈ pts, 0 ≤ q.y) ∧ (∃ q ∈ pts, 0 ≤ q.z)

/-- Every axis attains values on both sides of zero (weakly); preserved by
the rotation formulas, which permute axes up to sign. -/
def SpreadOK (pts : List Point) : Prop := AxLE pts ∧ AxGE pts

theorem MinsAt0.spreadOK {pts : List Point} (h : MinsAt0 pts) : SpreadOK pts := by
  obtain ⟨_, ⟨qx, hqx, ex⟩, ⟨qy, hqy, ey⟩, ⟨qz, hqz, ez⟩⟩ := h
  exact ⟨⟨⟨qx, hqx, by omega⟩, ⟨qy, hqy, by omega⟩, ⟨qz, hqz, by omega⟩⟩,
    ⟨⟨qx, hqx, by omega⟩, ⟨qy, hqy, by omega⟩, ⟨qz, hqz, by omega⟩⟩⟩

theorem spreadOK_map_rotZ {pts : List Point} (h : SpreadOK pts) :
    SpreadOK (pts.map rotZpt) := by
  obtain ⟨⟨⟨ax, hax, hax0⟩, ⟨ay, hay, hay0⟩, ⟨az, haz, haz0⟩⟩,
    ⟨⟨bx, hbx, hbx0⟩, ⟨by', hby, hby0⟩, ⟨bz, hbz, hbz0⟩⟩⟩ := h
  refine ⟨⟨⟨rotZpt ay, List.mem_map_of_mem _ hay, by simpa [rotZpt] using hay0⟩,
    ⟨rotZpt bx, List.mem_map_of_mem _ hbx, by simp [rotZpt]; omega⟩,
    ⟨rotZpt az, List.mem_map_of_mem _ haz, by simpa [rotZpt] using haz0⟩⟩,
    ⟨⟨rotZpt by', List.mem_map_of_mem _ hby, by simpa [rotZpt] using hby0⟩,
    ⟨rotZpt ax, List.mem_map_of_mem _ hax, by simp [rotZpt]; omega⟩,
    ⟨rotZpt bz, List.mem_map_of_mem _ hbz, by simpa [rotZpt] using hbz0⟩⟩⟩

theorem spreadOK_map_rotX {pts : List Point} (h : SpreadOK pts) :
    SpreadOK (pts.map rotXpt) := by
  obtain ⟨⟨⟨ax, hax, hax0⟩, ⟨ay, hay, hay0⟩, ⟨az, haz, haz0⟩⟩,
    ⟨⟨bx, hbx, hbx0⟩, ⟨by', hby, hby0⟩, ⟨bz, hbz, hbz0⟩⟩⟩ := h
  refine ⟨⟨⟨rotXpt ax, List.mem_map_of_mem _ hax, by simpa [rotXpt] using hax0⟩,
    ⟨rotXpt az, List.mem_map_of_mem _ haz, by simpa [rotXpt] using haz0⟩,
    ⟨rotXpt by', List.mem_map_of_mem _ hby, by simp [rotXpt]; omega⟩⟩,
    ⟨⟨rotXpt bx, List.mem_map_of_mem _ hbx, by simpa [rotXpt] using hbx0⟩,
    ⟨rotXpt bz, List.mem_map_of_mem _ hbz, by simpa [rotXpt] using hbz0⟩,
    ⟨rotXpt ay, List.mem_map_of_mem _ hay, by simp [rotXpt]; omega⟩⟩⟩

theorem spreadOK_map_rotY {pts : List Point} (h : SpreadOK pts) :
    SpreadOK (pts.map rotYpt) := by
  obtain ⟨⟨⟨ax, hax, hax0⟩, ⟨ay, hay, hay0⟩, ⟨az, haz, haz0⟩⟩,
    ⟨⟨bx, hbx, hbx0⟩, ⟨by', hby, hby0⟩, ⟨bz, hbz, hbz0⟩⟩⟩ := h
  refine ⟨⟨⟨rotYpt az, List.mem_map_of_mem _ haz, by simpa [rotYpt] using haz0⟩,
    ⟨rotYpt ay, List.mem_map_of_mem _ hay, by simpa [rotYpt] using hay0⟩,
    ⟨rotYpt bx, List.mem_map_of_mem _ hbx, by simp [rotYpt]; omega⟩⟩,
    ⟨⟨rotYpt bz, List.mem_map_of_mem _ hbz, by simpa [rotYpt] using hbz0⟩,
    ⟨rotYpt by', List.mem_map_of_mem _ hby, by simpa [rotYpt] using hby0⟩,
    ⟨rotYpt ax, List.mem_map_of_mem _ hax, by simp [rotYpt]; omega⟩⟩⟩

theorem clampedMin_perm (f : Point → Int) {l1 l2 : List Point}
    (h : l1.Perm l2) : clampedMin f l1 = clampedMin f l2 := by
  have hle : ∀ (a b : List Point), a.Perm b → clampedMin f a ≤ clampedMin f b := by
    intro a b hab
    rcases clampedMin_attained f b with hb | ⟨q, hq, hb⟩
    · rw [hb]; exact clampedMin_nonpos f a
    · rw [hb]; exact clampedMin_le f a q (hab.mem_iff.mpr hq)
  exact le_antisymm (hle l1 l2 h) (hle l2 l1 h.symm)

theorem normalizePts_perm {l1 l2 : List Point} (h : l1.Perm l2) :
    normalizePts l1 = normalizePts l2 := by
  have hx := clampedMin_perm (·.x) h
  have hy := clampedMin_perm (·.y) h
  have hz := clampedMin_perm (·.z) h
  unfold normalizePts
  rw [hx, hy, hz]
  refine List.eq_of_perm_of_sorted ?_ (List.sorted_insertionSort Point.le _)
    (List.sorted_insertionSort Point.le _)
  have p1 := List.perm_insertionSort Point.le
    (l1.map fun q => (⟨q.x - clampedMin (·.x) l2, q.y - clampedMin (·.y) l2,
      q.z - clampedMin (·.z) l2⟩ : Point))
  have p2 := List.perm_insertionSort Point.le
    (l2.map fun q => (⟨q.x - clampedMin (·.x) l2, q.y - clampedMin (·.y) l2,
      q.z - clampedMin (·.z) l2⟩ : Point))
  exact p1.trans ((h.map _).trans p2.symm)

/-- The clamped minimum of a translated list, when both clamps are
inactive (each axis attains a non-positive value), shifts with the
translation. -/
theorem clampedMin_shift (f : Point → Int) (s : Int) (X : List Point)
    (g : Point → Point) (hg : ∀ q, f (g q) = f q - s)
    (h1 : ∃ q ∈ X, f q ≤ 0) (h2 : ∃ q ∈ X, f q - s ≤ 0) :
    clampedMin f (X.map g) = clampedMin f X - s := by
  have hA : ∃ q0 ∈ X, clampedMin f X = f q0 := by
    rcases clampedMin_attained f X with h | h
    · obtain ⟨q1, hq1, hle⟩ := h1
      have := clampedMin_le f X q1 hq1
      exact ⟨q1, hq1, by omega⟩
    · exact h
  have hB : ∃ q0 ∈ X, clampedMin f (X.map g) = f q0 - s := by
    rcases clampedMin_attained f (X.map g) with h | h
    · obtain ⟨q1, hq1, hle⟩ := h2
      have := clampedMin_le f (X.map g) (g q1) (List.mem_map_of_mem g hq1)
      rw [hg q1] at this
      exact ⟨q1, hq1, by omega⟩
    · obtain ⟨q', hq', hval⟩ := h
      rw [List.mem_map] at hq'
      obtain ⟨q1, hq1, rfl⟩ := hq'
      rw [hg q1] at hval
      exact ⟨q1, hq1, hval⟩
  obtain ⟨qa, hqa, ha⟩ := hA
  obtain ⟨qb, hqb, hb⟩ := hB
  have h3 : clampedMin f (X.map g) ≤ f qa - s := by
    have := clampedMin_le f (X.map g) (g qa) (List.mem_map_of_mem g hqa)
    rw [hg qa] at this
    exact this
  have h4 : clampedMin f X ≤ f qb := clampedMin_le f X qb hqb
  omega

/-- Normalizing a uniformly translated list gives the same result as
normalizing the original, provided each axis attains a non-positive value
in both lists (so the clamp at zero is inactive). -/
theorem normalizePts_map_psub (X : List Point) (t : Point)
    (hX : AxLE X) (hXt : AxLE (X.map fun q => psub q t)) :
    normalizePts (X.map fun q => psub q t) = normalizePts X := by
  obtain ⟨hx1, hy1, hz1⟩ := hX
  have hx2 : ∃ q ∈ X, q.x - t.x ≤ 0 := by
    obtain ⟨q', hq', hle⟩ := hXt.1
    rw [List.mem_map] at hq'
    obtain ⟨q, hq, rfl⟩ := hq'
    exact ⟨q, hq, by simpa [psub] using hle⟩
  have hy2 : ∃ q ∈ X, q.y - t.y ≤ 0 := by
    obtain ⟨q', hq', hle⟩ := hXt.2.1
    rw [List.mem_map] at hq'
    obtain ⟨q, hq, rfl⟩ := hq'
    exact ⟨q, hq, by simpa [psub] using hle⟩
  have hz2 : ∃ q ∈ X, q.z - t.z ≤ 0 := by
    obtain ⟨q', hq', hle⟩ := hXt.2.2
    rw [List.mem_map] at hq'
    obtain ⟨q, hq, rfl⟩ := hq'
    exact ⟨q, hq, by simpa [psub] using hle⟩
  have sx := clampedMin_shift (·.x) t.x X (fun q => psub q t)
    (fun q => rfl) hx1 hx2
  have sy := clampedMin_shift (·.y) t.y X (fun q => psub q t)
    (fun q => rfl) hy1 hy2
  have sz := clampedMin_shift (·.z) t.z X (fun q => psub q t)
    (fun q => rfl) hz1 hz2
  unfold normalizePts
  rw [sx, sy, sz]
  simp only [List.map_map]
  congr 1
  apply List.map_congr_left
  intro q hq
  simp only [Function.comp, psub, Point.mk.injEq]
  refine ⟨by ring, by ring, by ring⟩

/-- An integer 3 by 3 matrix stored as three rows. -/
structure M3 where
  r1 : Point
  r2 : Point
  r3 : Point
  deriving DecidableEq, Repr

/-- Matrix action on a point (rows dotted with the coordinate vector). -/
def M3.apply (m : M3) (q : Point) : Point :=
  ⟨m.r1.x * q.x + m.r1.y * q.y + m.r1.z * q.z,
   m.r2.x * q.x + m.r2.y * q.y + m.r2.z * q.z,
   m.r3.x * q.x + m.r3.y * q.y + m.r3.z * q.z⟩

/-- Matrix product. -/
def M3.mul (m n : M3) : M3 :=
  ⟨⟨m.r1.x * n.r1.x + m.r1.y * n.r2.x + m.r1.z * n.r3.x,
    m.r1.x * n.r1.y + m.r1.y * n.r2.y + m.r1.z * n.r3.y,
    m.r1.x * n.r1.z + m.r1.y * n.r2.z + m.r1.z * n.r3.z⟩,
   ⟨m.r2.x * n.r1.x + m.r2.y * n.r2.x + m.r2.z * n.r3.x,
    m.r2.x * n.r1.y + m.r2.y * n.r2.y + m.r2.z * n.r3.y,
    m.r2.x * n.r1.z + m.r2.y * n.r2.z + m.r2.z * n.r3.z⟩,
   ⟨m.r3.x * n.r1.x + m.r3.y * n.r2.x + m.r3.z * n.r3.x,
    m.r3.x * n.r1.y + m.r3.y * n.r2.y + m.r3.z * n.r3.y,
    m.r3.x * n.r1.z + m.r3.y * n.r2.z + m.r3.z * n.r3.z⟩⟩

/-- Determinant. -/
def M3.det (m : M3) : Int :=
  m.r1.x * (m.r2.y * m.r3.z - m.r2.z * m.r3.y) -
  m.r1.y * (m.r2.x * m.r3.z - m.r2.z * m.r3.x) +
  m.r1.z * (m.r2.x * m.r3.y - m.r2.y * m.r3.x)

def idM : M3 := ⟨⟨1, 0, 0⟩, ⟨0, 1, 0⟩, ⟨0, 0, 1⟩⟩

/-- The matrix of the rotateX point formula (x, y, z) to (x, z, -y). -/
def MX : M3 := ⟨⟨1, 0, 0⟩, ⟨0, 0, 1⟩, ⟨0, -1, 0⟩⟩

/-- The matrix of the rotateY point formula (x, y, z) to (z, y, -x). -/
def MY : M3 := ⟨⟨0, 0, 1⟩, ⟨0, 1, 0⟩, ⟨-1, 0, 0⟩⟩

/-- The matrix of the rotateZ point formula (x, y, z) to (y, -x, z). -/
def MZ : M3 := ⟨⟨0, 1, 0⟩, ⟨-1, 0, 0⟩, ⟨0, 0, 1⟩⟩

theorem idM_apply (q : Point) : idM.apply q = q := by
  cases q
  simp [idM, M3.apply]

theorem MX_apply (q : Point) : MX.apply q = rotXpt q := by
  cases q
  simp only [MX, M3.apply, rotXpt, Point.mk.injEq]
  refine ⟨by ring, by ring, by ring⟩

theorem MY_apply (q : Point) : MY.apply q = rotYpt q := by
  cases q
  simp only [MY, M3.apply, rotYpt, Point.mk.injEq]
  refine ⟨by ring, by ring, by ring⟩

theorem MZ_apply (q : Point) : MZ.apply q = rotZpt q := by
  cases q
  simp only [MZ, M3.apply, rotZpt, Point.mk.injEq]
  refine ⟨by ring, by ring, by ring⟩

theorem M3.mul_apply (m n : M3) (q : Point) :
    (m.mul n).apply q = m.apply (n.apply q) := by
  cases q
  simp only [M3.mul, M3.apply, Point.mk.injEq]
  refine ⟨by ring, by ring, by ring⟩

/-- One primitive rotation of the allRotations chain. -/
inductive RotOp where
  | X | Y | Z
  deriving DecidableEq, Repr

/-- The rotation's action on a Piece (the rotate member functions). -/
def RotOp.app : RotOp → Piece → Piece
  | .X => Piece.rotateX
  | .Y => Piece.rotateY
  | .Z => Piece.rotateZ

/-- The rotation's point formula. -/
def RotOp.pt : RotOp → Point → Point
  | .X => rotXpt
  | .Y => rotYpt
  | .Z => rotZpt

/-- The rotation's matrix. -/
def RotOp.mat : RotOp → M3
  | .X => MX
  | .Y => MY
  | .Z => MZ

theorem RotOp.mat_apply (op : RotOp) (q : Point) :
    op.mat.apply q = op.pt q := by
  cases op
  · exact MX_apply q
  · exact MY_apply q
  · exact MZ_apply q

theorem RotOp.spread_map (op : RotOp) {pts : List Point} (h : SpreadOK pts) :
    SpreadOK (pts.map op.pt) := by
  cases op
  · exact spreadOK_map_rotX h
  · exact spreadOK_map_rotY h
  · exact spreadOK_map_rotZ h

/-- The 24 rotation steps of allRotations, in source order. -/
def opsList : List RotOp :=
  [.X, .X, .X, .Z, .Y, .Y, .Y, .Z, .X, .X, .X, .Z, .Y, .Y, .Y,
   .X, .Z, .Z, .Z, .X, .X, .Z, .Z, .Z]

/-- The successive piece states of the rotation chain (initial piece
included), one entry per insert point plus the skipped double-rotateX
intermediate state. -/
def chainStates (p : Piece) : List RotOp → List Piece
  | [] => [p]
  | op :: rest => p :: chainStates (op.app p) rest

/-- The successive composite matrices of the rotation chain. -/
def matStates (g : M3) : List RotOp → List M3
  | [] => [g]
  | op :: rest => g :: matStates (op.mat.mul g) rest

/-- The 24 composite matrices whose images the chain inserts (all
intermediate states except the one between the two rotateX calls of the
final block). -/
def chainMats : List M3 := (matStates idM opsList).eraseIdx 20

/-- The 25 composite matrices of the chain, written out. -/
def matStatesLit : List M3 :=
  [⟨⟨1, 0, 0⟩, ⟨0, 1, 0⟩, ⟨0, 0, 1⟩⟩,
  ⟨⟨1, 0, 0⟩, ⟨0, 0, 1⟩, ⟨0, -1, 0⟩⟩,
  ⟨⟨1, 0, 0⟩, ⟨0, -1, 0⟩, ⟨0, 0, -1⟩⟩,
  ⟨⟨1, 0, 0⟩, ⟨0, 0, -1⟩, ⟨0, 1, 0⟩⟩,
  ⟨⟨0, 0, -1⟩, ⟨-1, 0, 0⟩, ⟨0, 1, 0⟩⟩,
  ⟨⟨0, 1, 0⟩, ⟨-1, 0, 0⟩, ⟨0, 0, 1⟩⟩,
  ⟨⟨0, 0, 1⟩, ⟨-1, 0, 0⟩, ⟨0, -1, 0⟩⟩,
  ⟨⟨0, -1, 0⟩, ⟨-1, 0, 0⟩, ⟨0, 0, -1⟩⟩,
  ⟨⟨-1, 0, 0⟩, ⟨0, 1, 0⟩, ⟨0, 0, -1⟩⟩,
  ⟨⟨-1, 0, 0⟩, ⟨0, 0, -1⟩, ⟨0, -1, 0⟩⟩,
  ⟨⟨-1, 0, 0⟩, ⟨0, -1, 0⟩, ⟨0, 0, 1⟩⟩,
  ⟨⟨-1, 0, 0⟩, ⟨0, 0, 1⟩, ⟨0, 1, 0⟩⟩,
  ⟨⟨0, 0, 1⟩, ⟨1, 0, 0⟩, ⟨0, 1, 0⟩⟩,
  ⟨⟨0, 1, 0⟩, ⟨1, 0, 0⟩, ⟨0, 0, -1⟩⟩,
  ⟨⟨0, 0, -1⟩, ⟨1, 0, 0⟩, ⟨0, -1, 0⟩⟩,
  ⟨⟨0, -1, 0⟩, ⟨1, 0, 0⟩, ⟨0, 0, 1⟩⟩,
  ⟨⟨0, -1, 0⟩, ⟨0, 0, 1⟩, ⟨-1, 0, 0⟩⟩,
  ⟨⟨0, 0, 1⟩, ⟨0, 1, 0⟩, ⟨-1, 0, 0⟩⟩,
  ⟨⟨0, 1, 0⟩, ⟨0, 0, -1⟩, ⟨-1, 0, 0⟩⟩,
  ⟨⟨0, 0, -1⟩, ⟨0, -1, 0⟩, ⟨-1, 0, 0⟩⟩,
  ⟨⟨0, 0, -1⟩, ⟨-1, 0, 0⟩, ⟨0, 1, 0⟩⟩,
  ⟨⟨0, 0, -1⟩, ⟨0, 1, 0⟩, ⟨1, 0, 0⟩⟩,
  ⟨⟨0, 1, 0⟩, ⟨0, 0, 1⟩, ⟨1, 0, 0⟩⟩,
  ⟨⟨0, 0, 1⟩, ⟨0, -1, 0⟩, ⟨1, 0, 0⟩⟩,
  ⟨⟨0, -1, 0⟩, ⟨0, 0, -1⟩, ⟨1, 0, 0⟩⟩]

theorem matStates_eval : matStates idM opsList = matStatesLit := by
  simp [matStates, opsList, RotOp.mat, M3.mul, idM, MX, MY, MZ, matStatesLit]

theorem chainMats_eval : chainMats = matStatesLit.eraseIdx 20 := by
  unfold chainMats
  rw [matStates_eval]

/-- The six signed unit vectors. -/
def unitVecs : List Point :=
  [⟨1, 0, 0⟩, ⟨-1, 0, 0⟩, ⟨0, 1, 0⟩, ⟨0, -1, 0⟩, ⟨0, 0, 1⟩, ⟨0, 0, -1⟩]

/-- Dot product of points viewed as vectors. -/
def pdot (a b : Point) : Int := a.x * b.x + a.y * b.y + a.z * b.z

/-- The 24-element rotation group of the cube: integer matrices whose
rows are pairwise-orthogonal signed unit vectors and whose determinant is
one (orthogonal integer matrices of determinant one, i.e. rotations; the
determinant-minus-one half, the reflections, is excluded). -/
def cubeRotations : List M3 :=
  (unitVecs.flatMap fun r1 => unitVecs.flatMap fun r2 => unitVecs.map fun r3 =>
    (⟨r1, r2, r3⟩ : M3)).filter
    (fun m => pdot m.r1 m.r2 == 0 && pdot m.r1 m.r3 == 0 &&
      pdot m.r2 m.r3 == 0 && m.det == 1)

theorem cubeRotations_card : cubeRotations.length = 24 := by decide

theorem chainMats_nodup : chainMats.Nodup := by
  rw [chainMats_eval]
  decide

theorem chainMats_sub_cube : ∀ m ∈ chainMats, m ∈ cubeRotations := by
  rw [chainMats_eval]
  decide

theorem cube_sub_chainMats : ∀ m ∈ cubeRotations, m ∈ chainMats := by
  rw [chainMats_eval]
  decide

/-- The canonical form of a matrix image of a piece. -/
def canonImage (m : M3) (p : Piece) : Piece :=
  Piece.normalize ⟨p.id, p.points.map m.apply, p.size⟩

theorem normalize_congr (i : PieceID) (l1 l2 : List Point) (s1 s2 : Size)
    (h : normalizePts l1 = normalizePts l2) :
    Piece.normalize ⟨i, l1, s1⟩ = Piece.normalize ⟨i, l2, s2⟩ := by
  unfold Piece.normalize
  simp only [h]

theorem normalizePts_nonneg (pts : List Point) :
    ∀ q ∈ normalizePts pts, 0 ≤ q.x ∧ 0 ≤ q.y ∧ 0 ≤ q.z := by
  intro q hq
  rw [mem_normalizePts, List.mem_map] at hq
  obtain ⟨r, hr, rfl⟩ := hq
  have hx := clampedMin_le (·.x) pts r hr
  have hy := clampedMin_le (·.y) pts r hr
  have hz := clampedMin_le (·.z) pts r hr
  simp only at hx hy hz ⊢
  omega

theorem clampedMin_of_nonneg (f : Point → Int) (pts : List Point)
    (h : ∀ q ∈ pts, 0 ≤ f q) : clampedMin f pts = 0 := by
  rcases clampedMin_attained f pts with hc | ⟨q, hq, hc⟩
  · exact hc
  · have h1 := clampedMin_nonpos f pts
    have h2 := h q hq
    omega

theorem normalizePts_of_sorted_nonneg (pts : List Point)
    (hs : pts.Sorted Point.le) (hn : ∀ q ∈ pts, 0 ≤ q.x ∧ 0 ≤ q.y ∧ 0 ≤ q.z) :
    normalizePts pts = pts := by
  unfold normalizePts
  rw [clampedMin_of_nonneg (·.x) pts (fun q hq => (hn q hq).1),
    clampedMin_of_nonneg (·.y) pts (fun q hq => (hn q hq).2.1),
    clampedMin_of_nonneg (·.z) pts (fun q hq => (hn q hq).2.2)]
  have hmap : (pts.map fun q => (⟨q.x - 0, q.y - 0, q.z - 0⟩ : Point)) = pts := by
    rw [show (fun q => (⟨q.x - 0, q.y - 0, q.z - 0⟩ : Point)) = id from ?_,
      List.map_id]
    funext q
    cases q
    simp
  show List.insertionSort Point.le
    (pts.map fun q => (⟨q.x - 0, q.y - 0, q.z - 0⟩ : Point)) = pts
  rw [hmap]
  exact List.eq_of_perm_of_sorted (List.perm_insertionSort Point.le pts)
    (List.sorted_insertionSort Point.le pts) hs

theorem Piece.normalize_idem (p : Piece) :
    Piece.normalize (Piece.normalize p) = Piece.normalize p := by
  unfold Piece.normalize
  simp only
  rw [normalizePts_of_sorted_nonneg (normalizePts p.points)
    (normalizePts_sorted p.points) (normalizePts_nonneg p.points)]

theorem RotOp.app_eq (op : RotOp) (p : Piece) :
    op.app p = Piece.normalize ⟨p.id, p.points.map op.pt, p.size⟩ := by
  cases op <;> rfl

theorem RotOp.pt_lin (op : RotOp) (a t : Point) :
    op.pt (psub a t) = psub (op.pt a) (op.pt t) := by
  cases op <;>
    simp only [RotOp.pt, rotXpt, rotYpt, rotZpt, psub, Point.mk.injEq] <;>
    refine ⟨by ring, by ring, by ring⟩

theorem AxLE_perm {l1 l2 : List Point} (h : l1.Perm l2) (ha : AxLE l1) :
    AxLE l2 := by
  obtain ⟨⟨qx, hqx, ex⟩, ⟨qy, hqy, ey⟩, ⟨qz, hqz, ez⟩⟩ := ha
  exact ⟨⟨qx, h.mem_iff.mp hqx, ex⟩, ⟨qy, h.mem_iff.mp hqy, ey⟩,
    ⟨qz, h.mem_iff.mp hqz, ez⟩⟩

/-- Rotating an already-normalized point list and normalizing gives the
same canonical form as rotating the raw list and normalizing, as long as
each axis of the raw list reaches both sides of zero (true of every
matrix image of a canonical list). -/
theorem normalize_map_normalize (op : RotOp) (T : List Point)
    (hT : SpreadOK T) :
    normalizePts ((normalizePts T).map op.pt) = normalizePts (T.map op.pt) := by
  have hdef : normalizePts T = List.insertionSort Point.le
      (T.map fun q => psub q ⟨clampedMin (·.x) T, clampedMin (·.y) T,
        clampedMin (·.z) T⟩) := rfl
  have hperm1 : (normalizePts T).map op.pt
      |>.Perm ((T.map fun q => psub q ⟨clampedMin (·.x) T, clampedMin (·.y) T,
        clampedMin (·.z) T⟩).map op.pt) := by
    rw [hdef]
    exact (List.perm_insertionSort Point.le _).map op.pt
  have heq2 : ((T.map fun q => psub q ⟨clampedMin (·.x) T, clampedMin (·.y) T,
      clampedMin (·.z) T⟩).map op.pt)
      = (T.map op.pt).map fun q => psub q
        (op.pt ⟨clampedMin (·.x) T, clampedMin (·.y) T, clampedMin (·.z) T⟩) := by
    rw [List.map_map, List.map_map]
    apply List.map_congr_left
    intro q _
    simp only [Function.comp]
    exact op.pt_lin q _
  have hax1 : AxLE (T.map op.pt) := (op.spread_map hT).1
  have hax2 : AxLE ((T.map op.pt).map fun q => psub q
      (op.pt ⟨clampedMin (·.x) T, clampedMin (·.y) T, clampedMin (·.z) T⟩)) := by
    rw [← heq2]
    apply AxLE_perm hperm1
    have hm : MinsAt0 (normalizePts T) :=
      normalizePts_minsAt0 T hT.1.1 hT.1.2.1 hT.1.2.2
    exact (op.spread_map hm.spreadOK).1
  calc normalizePts ((normalizePts T).map op.pt)
      = normalizePts ((T.map op.pt).map fun q => psub q
        (op.pt ⟨clampedMin (·.x) T, clampedMin (·.y) T, clampedMin (·.z) T⟩)) := by
        rw [← heq2]
        exact normalizePts_perm (heq2 ▸ hperm1)
  _ = normalizePts (T.map op.pt) := normalizePts_map_psub _ _ hax1 hax2

theorem app_canonImage (op : RotOp) (p : Piece) (g : M3)
    (hT : SpreadOK (p.points.map g.apply)) :
    op.app (canonImage g p) = canonImage (op.mat.mul g) p := by
  rw [RotOp.app_eq]
  unfold canonImage
  have hmain : normalizePts ((normalizePts (p.points.map g.apply)).map op.pt)
      = normalizePts (p.points.map (op.mat.mul g).apply) := by
    rw [normalize_map_normalize op (p.points.map g.apply) hT]
    congr 1
    rw [List.map_map]
    apply List.map_congr_left
    intro q _
    simp only [Function.comp]
    rw [M3.mul_apply, RotOp.mat_apply]
  show Piece.normalize ⟨p.id, (normalizePts (p.points.map g.apply)).map op.pt,
      (Piece.normalize ⟨p.id, p.points.map g.apply, p.size⟩).size⟩
    = Piece.normalize ⟨p.id, p.points.map (op.mat.mul g).apply, p.size⟩
  exact normalize_congr p.id _ _ _ _ hmain

/-- Along the rotation chain started from a canonical piece, each state is
the canonical image of the accumulated matrix. -/
theorem chainStates_canon (p : Piece) (hp : MinsAt0 p.points) :
    ∀ (ops : List RotOp) (g : M3), SpreadOK (p.points.map g.apply) →
    chainStates (canonImage g p) ops
      = (matStates g ops).map (fun m => canonImage m p) := by
  intro ops
  induction ops with
  | nil => intro g _; rfl
  | cons op rest ih =>
    intro g hT
    have hstep := app_canonImage op p g hT
    have hT2 : SpreadOK (p.points.map (op.mat.mul g).apply) := by
      have : p.points.map (op.mat.mul g).apply
          = (p.points.map g.apply).map op.pt := by
        rw [List.map_map]
        apply List.map_congr_left
        intro q _
        simp only [Function.comp]
        rw [M3.mul_apply, RotOp.mat_apply]
      rw [this]
      exact op.spread_map hT
    calc chainStates (canonImage g p) (op :: rest)
        = canonImage g p :: chainStates (op.app (canonImage g p)) rest := rfl
    _ = canonImage g p :: chainStates (canonImage (op.mat.mul g) p) rest := by
        rw [hstep]
    _ = canonImage g p
        :: (matStates (op.mat.mul g) rest).map (fun m => canonImage m p) := by
        rw [ih (op.mat.mul g) hT2]
    _ = (matStates g (op :: rest)).map (fun m => canonImage m p) := rfl

theorem map_idM_apply (pts : List Point) : pts.map idM.apply = pts := by
  rw [show idM.apply = id from funext idM_apply, List.map_id]

theorem canonImage_idM (p : Piece) (hnorm : Piece.normalize p = p) :
    canonImage idM p = p := by
  unfold canonImage
  rw [show (⟨p.id, p.points.map idM.apply, p.size⟩ : Piece)
    = (⟨p.id, p.points, p.size⟩ : Piece) from by rw [map_idM_apply]]
  exact hnorm

/-- The list rotationChain writes out is exactly the chain states with
the skipped double-rotateX intermediate removed. -/
theorem rotationChain_eq_states (p : Piece) :
    rotationChain p = (chainStates p opsList).eraseIdx 20 := rfl

theorem eraseIdx_map {α β : Type} (f : α → β) :
    ∀ (l : List α) (i : Nat), (l.map f).eraseIdx i = (l.eraseIdx i).map f := by
  intro l
  induction l with
  | nil => intro i; simp
  | cons a rest ih =>
    intro i
    cases i with
    | zero => simp [List.eraseIdx]
    | succ j => simp only [List.map_cons, List.eraseIdx]; rw [ih]

/-- For a canonical base piece, the chain's inserted shapes are exactly
the canonical images of the 24 composite matrices. -/
theorem rotationChain_canon (p : Piece) (hnorm : Piece.normalize p = p)
    (hp : MinsAt0 p.points) :
    rotationChain p = chainMats.map (fun m => canonImage m p) := by
  rw [rotationChain_eq_states]
  have h0 : SpreadOK (p.points.map idM.apply) := by
    rw [map_idM_apply]
    exact hp.spreadOK
  have := chainStates_canon p hp opsList idM h0
  rw [canonImage_idM p hnorm] at this
  rw [this]
  unfold chainMats
  rw [eraseIdx_map]

theorem poInsert_length_mono (s : List Piece) (p : Piece) :
    s.length ≤ (poInsert s p).length := by
  unfold poInsert
  by_cases h : s.any (fun q => q.points = p.points) <;> simp [h]

theorem poInsert_length_le (s : List Piece) (p : Piece) :
    (poInsert s p).length ≤ s.length + 1 := by
  unfold poInsert
  by_cases h : s.any (fun q => q.points = p.points) <;> simp [h]

theorem foldl_poInsert_length_mono :
    ∀ (l : List Piece) (acc : List Piece),
      acc.length ≤ (l.foldl poInsert acc).length := by
  intro l
  induction l with
  | nil => intro acc; exact le_refl _
  | cons a rest ih =>
    intro acc
    calc acc.length ≤ (poInsert acc a).length := poInsert_length_mono acc a
    _ ≤ ((a :: rest).foldl poInsert acc).length := ih (poInsert acc a)

theorem foldl_poInsert_length_le :
    ∀ (l : List Piece) (acc : List Piece),
      (l.foldl poInsert acc).length ≤ acc.length + l.length := by
  intro l
  induction l with
  | nil => intro acc; simp
  | cons a rest ih =>
    intro acc
    calc ((a :: rest).foldl poInsert acc).length
        = (rest.foldl poInsert (poInsert acc a)).length := rfl
    _ ≤ (poInsert acc a).length + rest.length := ih (poInsert acc a)
    _ ≤ acc.length + 1 + rest.length := by
        have := poInsert_length_le acc a
        omega
    _ = acc.length + (a :: rest).length := by simp [List.length_cons]; omega

theorem poInsert_mem (acc : List Piece) (a q : Piece)
    (h : q ∈ poInsert acc a) : q ∈ acc ∨ q = a := by
  unfold poInsert at h
  by_cases hany : acc.any (fun r => r.points = a.points)
  · rw [if_pos hany] at h
    exact Or.inl h
  · rw [if_neg hany] at h
    rcases List.mem_append.mp h with h2 | h2
    · exact Or.inl h2
    · exact Or.inr (List.mem_singleton.mp h2)

theorem foldl_poInsert_mem :
    ∀ (l : List Piece) (acc : List Piece) (q : Piece),
      q ∈ l.foldl poInsert acc → q ∈ acc ∨ q ∈ l := by
  intro l
  induction l with
  | nil => intro acc q h; exact Or.inl h
  | cons a rest ih =>
    intro acc q h
    rcases ih (poInsert acc a) q h with h2 | h2
    · rcases poInsert_mem acc a q h2 with h3 | h3
      · exact Or.inl h3
      · exact Or.inr (h3 ▸ List.mem_cons_self a rest)
    · exact Or.inr (List.mem_cons_of_mem a h2)

theorem poInsert_mem_iff (acc : List Piece) (a : Piece)
    (hinj : ∀ b ∈ acc, b.points = a.points → b = a) (q : Piece) :
    q ∈ poInsert acc a ↔ q ∈ acc ∨ q = a := by
  constructor
  · exact poInsert_mem acc a q
  · intro h
    unfold poInsert
    by_cases hany : acc.any (fun r => r.points = a.points)
    · rw [if_pos hany]
      rcases h with h | rfl
      · exact h
      · rw [List.any_eq_true] at hany
        obtain ⟨b, hb, hbp⟩ := hany
        have : b = q := hinj b hb (by simpa using hbp)
        exact this ▸ hb
    · rw [if_neg hany]
      rcases h with h | rfl
      · exact List.mem_append.mpr (Or.inl h)
      · exact List.mem_append.mpr (Or.inr (List.mem_singleton.mpr rfl))

theorem foldl_poInsert_mem_iff :
    ∀ (l : List Piece) (acc : List Piece),
      (∀ b1 b2 : Piece, (b1 ∈ acc ∨ b1 ∈ l) → (b2 ∈ acc ∨ b2 ∈ l) →
        b1.points = b2.points → b1 = b2) →
      ∀ q, q ∈ l.foldl poInsert acc ↔ q ∈ acc ∨ q ∈ l := by
  intro l
  induction l with
  | nil =>
    intro acc _ q
    simp only [List.foldl_nil, List.not_mem_nil, or_false]
  | cons a rest ih =>
    intro acc hinj q
    have hinj2 : ∀ b1 b2 : Piece, (b1 ∈ poInsert acc a ∨ b1 ∈ rest) →
        (b2 ∈ poInsert acc a ∨ b2 ∈ rest) → b1.points = b2.points → b1 = b2 := by
      intro b1 b2 h1 h2 hp
      have t1 : b1 ∈ acc ∨ b1 ∈ a :: rest := by
        rcases h1 with h1 | h1
        · rcases poInsert_mem acc a b1 h1 with h | h
          · exact Or.inl h
          · exact Or.inr (h ▸ List.mem_cons_self a rest)
        · exact Or.inr (List.mem_cons_of_mem a h1)
      have t2 : b2 ∈ acc ∨ b2 ∈ a :: rest := by
        rcases h2 with h2 | h2
        · rcases poInsert_mem acc a b2 h2 with h | h
          · exact Or.inl h
          · exact Or.inr (h ▸ List.mem_cons_self a rest)
        · exact Or.inr (List.mem_cons_of_mem a h2)
      exact hinj b1 b2 t1 t2 hp
    have hia : ∀ b ∈ acc, b.points = a.points → b = a := by
      intro b hb hp
      exact hinj b a (Or.inl hb) (Or.inr (List.mem_cons_self a rest)) hp
    calc q ∈ (a :: rest).foldl poInsert acc
        ↔ q ∈ rest.foldl poInsert (poInsert acc a) := Iff.rfl
    _ ↔ q ∈ poInsert acc a ∨ q ∈ rest := ih (poInsert acc a) hinj2 q
    _ ↔ (q ∈ acc ∨ q = a) ∨ q ∈ rest := by
        rw [poInsert_mem_iff acc a hia q]
    _ ↔ q ∈ acc ∨ q ∈ a :: rest := by
        rw [List.mem_cons]
        tauto

/-- Claim C6 (amended): the set built by the rotation chain before the
height filter always has between 1 and 24 members; the set allRotations
actually returns is that set filtered by the hard-coded height-at-most-1
test, so it has at most 24 members but can be empty; and every returned
member comes from the rotation chain (a composition of the three
primitive 90-degree rotations, so no reflection is ever produced). -/
theorem chainStates_length :
    ∀ (ops : List RotOp) (q : Piece), (chainStates q ops).length = ops.length + 1 := by
  intro ops
  induction ops with
  | nil => intro q; rfl
  | cons op rest ih =>
    intro q
    simp only [chainStates, List.length_cons, ih (op.app q)]

theorem rotationChain_length (p : Piece) : (rotationChain p).length = 24 := by
  rw [rotationChain_eq_states, List.length_eraseIdx, chainStates_length]
  norm_num [opsList]

theorem foldl_poInsert_length_pos :
    ∀ (l : List Piece) (acc : List Piece), l ≠ [] →
      1 ≤ (l.foldl poInsert acc).length := by
  intro l
  cases l with
  | nil => intro acc h; exact absurd rfl h
  | cons a rest =>
    intro acc _
    have h1 : 1 ≤ (poInsert acc a).length := by
      unfold poInsert
      by_cases hany : acc.any (fun r => r.points = a.points)
      · rw [if_pos hany]
        rw [List.any_eq_true] at hany
        obtain ⟨b, hb, _⟩ := hany
        exact List.length_pos_of_mem hb
      · rw [if_neg hany]
        simp
    calc 1 ≤ (poInsert acc a).length := h1
    _ ≤ ((a :: rest).foldl poInsert acc).length :=
        foldl_poInsert_length_mono rest (poInsert acc a)

theorem claim_C6 (p : Piece) :
    1 ≤ (preFilterRotations p).length ∧ (preFilterRotations p).length ≤ 24 ∧
    (allRotations p).length ≤ 24 ∧
    (∀ q ∈ allRotations p, q ∈ preFilterRotations p) ∧
    (∀ q ∈ preFilterRotations p, q ∈ rotationChain p) := by
  have hlen24 : (rotationChain p).length = 24 := rotationChain_length p
  have hfold : preFilterRotations p = (rotationChain p).foldl poInsert [] := rfl
  have hne : rotationChain p ≠ [] := by
    intro h
    rw [h] at hlen24
    exact absurd hlen24 (by decide)
  have hle : (preFilterRotations p).length ≤ 24 := by
    rw [hfold]
    calc ((rotationChain p).foldl poInsert []).length
        ≤ ([] : List Piece).length + (rotationChain p).length :=
          foldl_poInsert_length_le (rotationChain p) []
    _ = 24 := by rw [hlen24]; rfl
  refine ⟨?_, hle, ?_, ?_, ?_⟩
  · rw [hfold]
    exact foldl_poInsert_length_pos (rotationChain p) [] hne
  · calc (allRotations p).length ≤ (preFilterRotations p).length :=
        List.length_filter_le _ _
    _ ≤ 24 := hle
  · intro q hq
    have hall : allRotations p
        = (preFilterRotations p).filter (fun q => q.size.z ≤ 1) := rfl
    rw [hall] at hq
    exact List.mem_of_mem_filter hq
  · intro q hq
    rw [hfold] at hq
    rcases foldl_poInsert_mem (rotationChain p) [] q hq with h | h
    · exact absurd h (List.not_mem_nil q)
    · exact h

/-- The 2 by 2 by 2 cube piece: every orientation has height 2, so the
hard-coded height filter removes all of them. -/
def cubePiece : Piece :=
  Piece.make .O4 [⟨0, 0, 0⟩, ⟨0, 0, 1⟩, ⟨0, 1, 0⟩, ⟨0, 1, 1⟩,
    ⟨1, 0, 0⟩, ⟨1, 0, 1⟩, ⟨1, 1, 0⟩, ⟨1, 1, 1⟩]

/-- Counterexample to claim C6 as stated: allRotations of the 2 by 2 by 2
cube returns the empty set, because the unconditional height-at-most-1
filter at the end of allRotations removes every orientation. -/
theorem claim_C6_counterexample :
    cubePiece.points.length = 8 ∧ allRotations cubePiece = [] := by decide

theorem canonImage_pts_inj (m1 m2 : M3) (p : Piece)
    (h : (canonImage m1 p).points = (canonImage m2 p).points) :
    canonImage m1 p = canonImage m2 p := by
  unfold canonImage Piece.normalize at h ⊢
  simp only at h ⊢
  rw [h]

/-- Claim C7 (amended): for a base piece that is canonical (fixed by
normalize, minima at zero — true of every constructed catalog piece), the
shapes inserted by the rotation chain are exactly the canonical images of
the base under the 24 matrices of the cube rotation group, and the fixed
composition sequence indeed visits 24 distinct matrices which are
precisely that group. -/
theorem claim_C7 (p : Piece) (hnorm : Piece.normalize p = p)
    (hp : MinsAt0 p.points) :
    (∀ q, q ∈ preFilterRotations p ↔ ∃ m ∈ cubeRotations, q = canonImage m p) ∧
    chainMats.Nodup ∧ cubeRotations.length = 24 ∧
    (∀ m ∈ chainMats, m ∈ cubeRotations) ∧
    (∀ m ∈ cubeRotations, m ∈ chainMats) := by
  refine ⟨?_, chainMats_nodup, cubeRotations_card,
    chainMats_sub_cube, cube_sub_chainMats⟩
  intro q
  have hchain := rotationChain_canon p hnorm hp
  have hfold : preFilterRotations p = (rotationChain p).foldl poInsert [] := rfl
  have hinj : ∀ b1 b2 : Piece,
      (b1 ∈ ([] : List Piece) ∨ b1 ∈ rotationChain p) →
      (b2 ∈ ([] : List Piece) ∨ b2 ∈ rotationChain p) →
      b1.points = b2.points → b1 = b2 := by
    intro b1 b2 h1 h2 hp12
    have m1 : b1 ∈ rotationChain p := by
      rcases h1 with h | h
      · exact absurd h (List.not_mem_nil b1)
      · exact h
    have m2 : b2 ∈ rotationChain p := by
      rcases h2 with h | h
      · exact absurd h (List.not_mem_nil b2)
      · exact h
    rw [hchain, List.mem_map] at m1 m2
    obtain ⟨g1, _, rfl⟩ := m1
    obtain ⟨g2, _, rfl⟩ := m2
    exact canonImage_pts_inj g1 g2 p hp12
  rw [hfold]
  rw [foldl_poInsert_mem_iff (rotationChain p) [] hinj q]
  simp only [List.not_mem_nil, false_or]
  rw [hchain, List.mem_map]
  constructor
  · rintro ⟨m, hm, rfl⟩
    exact ⟨m, chainMats_sub_cube m hm, rfl⟩
  · rintro ⟨m, hm, rfl⟩
    exact ⟨m, cube_sub_chainMats m hm, rfl⟩

/-- A piece stored, because of the clamped minimum, with an all-positive
x axis. -/
def badPiece : Piece := Piece.make .H7 [⟨1, 0, 0⟩]

/-- The 90-degree z rotation sending (1,0,0) to (0,1,0). -/
def mRot : M3 := ⟨⟨0, -1, 0⟩, ⟨1, 0, 0⟩, ⟨0, 0, 1⟩⟩

/-- Counterexample to claim C7 as stated (for every base piece): for the
non-canonical base piece stored as the single point (1,0,0), the
canonical image under the rotation sending it to (0,1,0) is never
inserted by the chain, because the chain normalizes intermediate states
and so collapses this piece to the origin point after one step. -/
theorem claim_C7_counterexample :
    mRot ∈ cubeRotations ∧
    ¬ canonImage mRot badPiece ∈ preFilterRotations badPiece := by decide

/-- Witness for claim C7 at a concrete input: the one-point origin piece
is canonical, and the theorem applies to it. -/
theorem claim_C7_witness : chainMats.Nodup :=
  (claim_C7 (Piece.make .O4 [⟨0, 0, 0⟩]) (by decide) (by decide)).2.1

/-- The tagged available-set list handed to the instrumented search: each
orientation set paired with its position in the original list. -/
def enumSets (l : List (List Piece)) : List (Nat × List Piece) :=
  (List.range l.length).map (fun i => (i, l.getD i []))

theorem enumSets_map_fst (l : List (List Piece)) :
    (enumSets l).map Prod.fst = List.range l.length := by
  unfold enumSets
  rw [List.map_map]
  exact List.map_id _

theorem enumSets_map_snd (l : List (List Piece)) :
    (enumSets l).map Prod.snd = l := by
  unfold enumSets
  rw [List.map_map]
  apply List.ext_getElem
  · simp
  · intro n h1 h2
    simp only [List.getElem_map, List.getElem_range, Function.comp]
    rw [List.getD_eq_getElem l [] (by simpa using h1)]

theorem mem_enumSets (l : List (List Piece)) (s : Nat × List Piece) :
    s ∈ enumSets l ↔ s.1 < l.length ∧ s.2 = l.getD s.1 [] := by
  unfold enumSets
  rw [List.mem_map]
  constructor
  · rintro ⟨i, hi, rfl⟩
    rw [List.mem_range] at hi
    exact ⟨hi, rfl⟩
  · rintro ⟨h1, h2⟩
    exact ⟨s.1, List.mem_range.mpr h1, by
      cases s
      simp only at h2
      simp [h2]⟩

/-- The translated cells of one search step's placement. -/
def stepCells (st : SearchStep) : List Position := cellsOf st.2.1 st.2.2

/-- Disjointness of two placements' cell sets. -/
def stepDisjoint (s t : SearchStep) : Prop :=
  ∀ c ∈ stepCells s, c ∉ stepCells t

theorem stepDisjoint_symm : Symmetric stepDisjoint := by
  intro s t h c hct hcs
  exact h c hcs hct

/-- The remaining placements exactly partition the unoccupied in-bounds
cells of the box: every placement cell is in bounds and free, distinct
placements are disjoint, and every free in-bounds cell is covered. -/
def ValidRest (b : Box) (rest : List SearchStep) : Prop :=
  (∀ st ∈ rest, ∀ c ∈ stepCells st, b.InBounds c ∧ ¬ b.Occ c) ∧
  rest.Pairwise stepDisjoint ∧
  (∀ c, b.InBounds c → ¬ b.Occ c → ∃ st ∈ rest, c ∈ stepCells st)

/-- The remaining placements draw one piece from each available tagged
set: their tags are a permutation of the available tags and each piece
belongs to the set carrying its tag. -/
def MatchesSets (l : List (Nat × List Piece)) (rest : List SearchStep) : Prop :=
  (rest.map Prod.fst).Perm (l.map Prod.fst) ∧
  ∀ st ∈ rest, ∃ s ∈ l, s.1 = st.1 ∧ st.2.1 ∈ s.2

/-- Well-formed tagged orientation sets: distinct tags, duplicate-free
sets of pieces with real ids and non-empty, duplicate-free, sorted point
lists (the invariants std::set of canonical pieces provides). -/
def WFSets (l : List (Nat × List Piece)) : Prop :=
  (l.map Prod.fst).Nodup ∧
  ∀ s ∈ l, s.2.Nodup ∧ ∀ p ∈ s.2, p.id ≠ PieceID.NONE ∧ p.points ≠ [] ∧
    p.points.Nodup ∧ p.points.Sorted Point.le

/-- Cell counts for the tagged sets. -/
def TaggedSized (l : List (Nat × List Piece)) (cs : List Nat) : Prop :=
  cs.length = l.length ∧
  ∀ pr ∈ l.zip cs, ∀ p ∈ pr.1.2, p.points.length = pr.2

/-- The single anchor the search tries (main.cpp lines 379-381): the empty
cell minus the first point of the orientation's stored point sequence. -/
def Box.posToTry (b : Box) (p : Piece) : Position :=
  let ec := b.findFirstEmptyCell
  let q0 := p.points.headD ⟨0, 0, 0⟩
  ⟨ec.x - q0.x, ec.y - q0.y, ec.z - q0.z⟩

/-- Unfolding of the instrumented search worker on a non-empty set list. -/
theorem searchStepsGo_succ (fuel : Nat) (l : List (Nat × List Piece)) (b : Box)
    (hl : l ≠ []) :
    searchStepsGo (Nat.succ fuel) l b =
      (List.range l.length).flatMap (fun i =>
        (l.getD i (0, [])).2.flatMap (fun p =>
          if (b.tryPushPieceTo p (b.posToTry p)).1 then
            (searchStepsGo fuel (l.eraseIdx i)
                (b.tryPushPieceTo p (b.posToTry p)).2).map
              (fun t => ((l.getD i (0, [])).1, p, b.posToTry p) :: t)
          else [])) := by
  cases l with
  | nil => exact absurd rfl hl
  | cons a as => rfl

/-- Membership characterization for one level of the instrumented search:
a recorded path is one branch choice (set index, orientation, the single
tried anchor) whose push succeeded, consed onto a path recorded below. -/
theorem mem_searchStepsGo_succ (fuel : Nat) (l : List (Nat × List Piece))
    (b : Box) (hl : l ≠ []) (path : List SearchStep) :
    path ∈ searchStepsGo (Nat.succ fuel) l b ↔
      ∃ i, i < l.length ∧ ∃ p, p ∈ (l.getD i (0, [])).2 ∧
        (b.tryPushPieceTo p (b.posToTry p)).1 = true ∧
        ∃ t, t ∈ searchStepsGo fuel (l.eraseIdx i)
            (b.tryPushPieceTo p (b.posToTry p)).2 ∧
          path = ((l.getD i (0, [])).1, p, b.posToTry p) :: t := by
  rw [searchStepsGo_succ fuel l b hl, List.mem_flatMap]
  constructor
  · rintro ⟨i, hi, hmem⟩
    rw [List.mem_range] at hi
    rw [List.mem_flatMap] at hmem
    obtain ⟨p, hp, hmem⟩ := hmem
    rcases hres : (b.tryPushPieceTo p (b.posToTry p)).1 with _ | _
    · rw [if_neg (by simp [hres])] at hmem
      exact absurd hmem (List.not_mem_nil path)
    · rw [if_pos hres] at hmem
      rw [List.mem_map] at hmem
      obtain ⟨t, ht, rfl⟩ := hmem
      exact ⟨i, hi, p, hp, hres, t, ht, rfl⟩
  · rintro ⟨i, hi, p, hp, hres, t, ht, rfl⟩
    refine ⟨i, List.mem_range.mpr hi, ?_⟩
    rw [List.mem_flatMap]
    refine ⟨p, hp, ?_⟩
    rw [if_pos hres, List.mem_map]
    exact ⟨t, ht, rfl⟩

/-- The orientation set a tagged list holds at an index, when the tags are
forgotten. -/
theorem getD_snd_of_map (tl : List (Nat × List Piece)) (l : List (List Piece))
    (h : tl.map Prod.snd = l) (i : Nat) :
    (tl.getD i (0, [])).2 = l.getD i [] := by
  subst h
  rw [List.getD_eq_getElem?_getD, List.getD_eq_getElem?_getD, List.getElem?_map]
  cases tl[i]? with
  | none => rfl
  | some s => rfl

/-- The search and its instrumented twin agree level by level: the boxes
the search records are the replays of the instrumented search's paths. -/
theorem searchGo_eq_stepsGo :
    ∀ (fuel : Nat) (tl : List (Nat × List Piece)) (l : List (List Piece))
      (b : Box), tl.map Prod.snd = l →
      searchGo fuel l b = (searchStepsGo fuel tl b).map (pushSteps b) := by
  intro fuel
  induction fuel with
  | zero =>
    intro tl l b h
    cases tl with
    | nil => subst h; rfl
    | cons a as => subst h; rfl
  | succ fuel ih =>
    intro tl l b h
    cases tl with
    | nil => subst h; rfl
    | cons a as =>
      have hl : l ≠ [] := by rw [← h]; simp
      rw [searchGo_succ fuel l b hl,
        searchStepsGo_succ fuel (a :: as) b (by simp), List.map_flatMap]
      have hlen : l.length = (a :: as : List (Nat × List Piece)).length := by
        rw [← h, List.length_map]
      rw [hlen]
      apply congrArg
      funext i
      rw [List.map_flatMap, getD_snd_of_map (a :: as) l h i]
      apply congrArg
      funext p
      show (if (b.tryPushPieceTo p (b.posToTry p)).1 = true
          then searchGo fuel (l.eraseIdx i)
            (b.tryPushPieceTo p (b.posToTry p)).2 else [])
        = List.map (pushSteps b)
            (if (b.tryPushPieceTo p (b.posToTry p)).1 = true then
              (searchStepsGo fuel ((a :: as).eraseIdx i)
                  (b.tryPushPieceTo p (b.posToTry p)).2).map
                (fun t => (((a :: as).getD i (0, [])).1, p, b.posToTry p) :: t)
            else [])
      by_cases hres : (b.tryPushPieceTo p (b.posToTry p)).1 = true
      case neg =>
        rw [if_neg hres, if_neg hres]
        rfl
      case pos =>
        rw [if_pos hres, if_pos hres, List.map_map]
        have h2 : ((a :: as).eraseIdx i).map Prod.snd = l.eraseIdx i := by
          rw [← eraseIdx_map Prod.snd (a :: as) i, h]
        rw [ih ((a :: as).eraseIdx i) (l.eraseIdx i)
          (b.tryPushPieceTo p (b.posToTry p)).2 h2]
        apply List.map_congr_left
        intro t _
        rfl

/-- searchNextCellPiece computes exactly the replays of the instrumented
search's recorded choice paths. -/
theorem searchNextCellPiece_eq_steps (l : List (List Piece)) (b : Box) :
    searchNextCellPiece l b = (searchSteps (enumSets l) b).map (pushSteps b) := by
  unfold searchNextCellPiece searchSteps
  have hlen : (enumSets l).length = l.length := by
    unfold enumSets
    rw [List.length_map, List.length_range]
  rw [hlen]
  exact searchGo_eq_stepsGo l.length (enumSets l) l b (enumSets_map_snd l)

theorem perm_getD_cons_eraseIdx {α : Type} (d : α) :
    ∀ (l : List α) (i : Nat), i < l.length →
      l.Perm (l.getD i d :: l.eraseIdx i) := by
  intro l
  induction l with
  | nil => intro i h; simp at h
  | cons a t ih =>
    intro i h
    cases i with
    | zero => simp [List.eraseIdx]
    | succ j =>
      simp only [List.length_cons, Nat.succ_lt_succ_iff] at h
      have h1 : (a :: t : List α).Perm (a :: (t.getD j d :: t.eraseIdx j)) :=
        List.Perm.cons a (ih j h)
      have h2 : (a :: (t.getD j d :: t.eraseIdx j) : List α).Perm
          (t.getD j d :: (a :: t.eraseIdx j)) := List.Perm.swap _ _ _
      have h3 : ((a :: t : List α).getD (j + 1) d :: (a :: t).eraseIdx (j + 1))
          = t.getD j d :: (a :: t.eraseIdx j) := rfl
      rw [h3]
      exact h1.trans h2

theorem mem_eraseIdx_of_ne {α : Type} [DecidableEq α] (l : List α) (i : Nat)
    (hi : i < l.length) (s : α) (hs : s ∈ l) (hne : s ≠ l.getD i s) :
    s ∈ l.eraseIdx i := by
  have hperm := perm_getD_cons_eraseIdx s l i hi
  have := hperm.mem_iff.mp hs
  rcases List.mem_cons.mp this with h | h
  · exact absurd h hne
  · exact h

theorem WFSets_eraseIdx (l : List (Nat × List Piece)) (i : Nat)
    (h : WFSets l) : WFSets (l.eraseIdx i) := by
  refine ⟨?_, ?_⟩
  · exact h.1.sublist ((List.eraseIdx_sublist l i).map Prod.fst)
  · intro s hs
    exact h.2 s (List.mem_of_mem_eraseIdx hs)

theorem TaggedSized_eraseIdx (l : List (Nat × List Piece)) (cs : List Nat)
    (i : Nat) (h : TaggedSized l cs) :
    TaggedSized (l.eraseIdx i) (cs.eraseIdx i) := by
  refine ⟨?_, ?_⟩
  · rw [List.length_eraseIdx, List.length_eraseIdx, h.1]
  · intro pr hpr
    rw [zip_eraseIdx] at hpr
    exact h.2 pr (List.mem_of_mem_eraseIdx hpr)

/-- A successful push of a piece with a real id and duplicate-free points
raises the occupied count by the piece's cell count. -/
theorem Box.pushed_countOcc (b : Box) (p : Piece) (pos : Position)
    (hb : b.DLen) (hcan : b.canPush p pos = true)
    (hid : p.id ≠ PieceID.NONE) (hnd : p.points.Nodup) :
    countOcc (b.tryPushPieceTo p pos).2.data
      = countOcc b.data + p.points.length := by
  rw [b.tryPush_of_ok p pos hcan]
  have hdat : ({ b.commitPush p pos with
      pieces := ⟨p, pos⟩ :: b.pieces } : Box).data
      = (commitList pos p.id p.points b).data := rfl
  rw [hdat]
  apply countOcc_commitList pos p.id hid p.points b hb
  · exact List.Nodup.map (Position.trans_inj pos) hnd
  · intro q hq
    exact (b.canPush_iff p pos).mp hcan (pos.trans q)
      (by rw [cellsOf_eq_map]; exact List.mem_map_of_mem _ hq)

/-- A box whose occupied count has reached its volume has every in-bounds
cell occupied. -/
theorem Box.full_of_countOcc (b : Box) (hb : b.DLen)
    (h : countOcc b.data = b.vol) : ∀ c, b.InBounds c → b.Occ c := by
  intro c hc
  have hlt : b.index c.x c.y c.z < b.data.length := by
    rw [hb]; exact b.index_lt_vol c hc
  have hall : ∀ e ∈ b.data, e ≠ PieceID.NONE :=
    (countOcc_eq_length_iff b.data).mp (by rw [h, hb])
  unfold Box.Occ Box.cellAt
  rw [List.getD_eq_getElem b.data PieceID.NONE hlt]
  exact hall _ (List.getElem_mem hlt)

/-- When a free in-bounds cell exists, findFirstEmptyCell returns a free
in-bounds cell, and every in-bounds cell before it in scan order is
occupied.  (Non-claim helper; the claim-C8 theorem states the full
contract of the scan.) -/
theorem Box.findEmpty_spec (b : Box) (c : Position) (hc : b.InBounds c)
    (hocc : ¬ b.Occ c) :
    b.InBounds b.findFirstEmptyCell ∧ ¬ b.Occ b.findFirstEmptyCell ∧
    ∀ d, b.InBounds d →
      Position.scanLt d b.findFirstEmptyCell → b.Occ d := by
  rcases hf : b.allCells.find? (fun c => !b.isOccupied c.x c.y c.z) with _ | e
  · exfalso
    have := List.find?_eq_none.mp hf c ((b.mem_allCells c).mpr hc)
    simp only [Bool.not_eq_true', Bool.not_eq_false] at this
    exact hocc ((b.isOccupied_eq_occ c).mp this)
  · have hr : b.findFirstEmptyCell = e := by
      unfold Box.findFirstEmptyCell
      rw [hf]
    obtain ⟨he1, he2, he3⟩ :=
      find?_sorted_spec _ b.allCells (b.allCells_sorted) e hf
    rw [hr]
    refine ⟨(b.mem_allCells e).mp he1, ?_, ?_⟩
    · intro hocc2
      rw [Bool.not_eq_true'] at he2
      rw [← b.isOccupied_eq_occ e, he2] at hocc2
      exact absurd hocc2 (by simp)
    · intro d hd hde
      have hfd := he3 d ((b.mem_allCells d).mpr hd) hde
      exact (b.isOccupied_eq_occ d).mp (by simpa using hfd)

/-- The tried anchor translates the orientation's first point back onto
the empty cell. -/
theorem posToTry_trans_head (b : Box) (p : Piece) :
    (b.posToTry p).trans (p.points.headD ⟨0, 0, 0⟩)
      = b.findFirstEmptyCell := by
  unfold Box.posToTry Position.trans
  cases hb : b.findFirstEmptyCell
  cases p.points.headD ⟨0, 0, 0⟩
  simp only [Position.mk.injEq]
  refine ⟨by ring, by ring, by ring⟩

/-- The head of a sorted point list is below every member. -/
theorem head_le_of_sorted (pts : List Point) (hne : pts ≠ [])
    (hs : pts.Sorted Point.le) :
    ∀ q ∈ pts, Point.le (pts.headD ⟨0, 0, 0⟩) q := by
  cases pts with
  | nil => exact absurd rfl hne
  | cons a t =>
    intro q hq
    rcases List.mem_cons.mp hq with rfl | hqt
    · exact Or.inr rfl
    · exact List.rel_of_sorted_cons hs q hqt

/-- Translation turns the point order into the scan order (weakly). -/
theorem trans_le_scan (pos : Position) (a q : Point) (h : Point.le a q) :
    Position.scanLt (pos.trans a) (pos.trans q) ∨ pos.trans a = pos.trans q := by
  rcases h with h | rfl
  · left
    rcases h with h | ⟨e, h⟩ | ⟨e1, e2, h⟩
    · exact Or.inl (by simp only [Position.trans]; omega)
    · exact Or.inr (Or.inl (by simp only [Position.trans]; constructor <;> omega))
    · refine Or.inr (Or.inr ?_)
      simp only [Position.trans]
      refine ⟨by omega, by omega, by omega⟩
  · exact Or.inr rfl

/-- Soundness of the search: when the available pieces' total cell count
is exactly the unoccupied volume, every path the instrumented search
records is a tiling of the free cells drawing one piece per tagged set. -/
theorem searchSteps_sound :
    ∀ (fuel : Nat) (l : List (Nat × List Piece)) (b : Box) (cs : List Nat),
      l.length ≤ fuel → b.DLen → WFSets l → TaggedSized l cs →
      countOcc b.data + cs.sum = b.vol →
      ∀ path ∈ searchStepsGo fuel l b,
        ValidRest b path ∧ MatchesSets l path := by
  intro fuel
  induction fuel with
  | zero =>
    intro l b cs hfuel hb hwf hts hvol path hpath
    have hl : l = [] := List.length_eq_zero.mp (by omega)
    subst hl
    simp only [searchStepsGo, List.mem_singleton] at hpath
    subst hpath
    have hcs : cs = [] := List.length_eq_zero.mp hts.1
    subst hcs
    refine ⟨⟨fun st hst => absurd hst (List.not_mem_nil st), List.Pairwise.nil,
      fun c hc hocc => absurd (b.full_of_countOcc hb (by simpa using hvol) c hc)
        hocc⟩,
      by simp [MatchesSets]⟩
  | succ fuel ih =>
    intro l b cs hfuel hb hwf hts hvol path hpath
    cases hl0 : l with
    | nil =>
      subst hl0
      simp only [searchStepsGo, List.mem_singleton] at hpath
      subst hpath
      have hcs : cs = [] := List.length_eq_zero.mp hts.1
      subst hcs
      refine ⟨⟨fun st hst => absurd hst (List.not_mem_nil st), List.Pairwise.nil,
        fun c hc hocc => absurd (b.full_of_countOcc hb (by simpa using hvol) c hc)
          hocc⟩,
        by simp [MatchesSets]⟩
    | cons a as =>
      rw [← hl0]
      have hl : l ≠ [] := by rw [hl0]; simp
      obtain ⟨i, hi, p, hp, hres, t, ht, rfl⟩ :=
        (mem_searchStepsGo_succ fuel l b hl path).mp hpath
      have hsl : l.getD i (0, []) ∈ l := by
        rw [List.getD_eq_getElem l _ hi]
        exact List.getElem_mem hi
      obtain ⟨hid, hpne, hpnd, hpsort⟩ := (hwf.2 _ hsl).2 p hp
      have hcan : b.canPush p (b.posToTry p) = true := by
        rw [← b.tryPush_fst]; exact hres
      have hcells : ∀ c ∈ cellsOf p (b.posToTry p), b.InBounds c ∧ ¬ b.Occ c :=
        (b.canPush_iff p (b.posToTry p)).mp hcan
      have hb2 : (b.tryPushPieceTo p (b.posToTry p)).2.DLen :=
        b.pushed_DLen p (b.posToTry p) hb hcan
      have hwf2 : WFSets (l.eraseIdx i) := WFSets_eraseIdx l i hwf
      have hts2 : TaggedSized (l.eraseIdx i) (cs.eraseIdx i) :=
        TaggedSized_eraseIdx l cs i hts
      have hic : i < cs.length := by rw [hts.1]; exact hi
      have hplen : p.points.length = cs.getD i 0 :=
        hts.2 (l.getD i (0, []), cs.getD i 0)
          (getD_zip_mem l cs (0, []) 0 i hi hic) p hp
      have hvol2 : countOcc (b.tryPushPieceTo p (b.posToTry p)).2.data
          + (cs.eraseIdx i).sum = (b.tryPushPieceTo p (b.posToTry p)).2.vol := by
        rw [b.pushed_countOcc p (b.posToTry p) hb hcan hid hpnd]
        have hvv : (b.tryPushPieceTo p (b.posToTry p)).2.vol = b.vol := by
          unfold Box.vol
          rw [b.pushed_x p _ hcan, b.pushed_y p _ hcan, b.pushed_z p _ hcan]
        rw [hvv]
        have hsum := sum_eraseIdx cs i hic
        omega
      have hfl : (l.eraseIdx i).length ≤ fuel := by
        rw [List.length_eraseIdx]
        simp only [hi, if_pos]
        omega
      obtain ⟨hVR2, hMS2⟩ := ih (l.eraseIdx i)
        (b.tryPushPieceTo p (b.posToTry p)).2 (cs.eraseIdx i)
        hfl hb2 hwf2 hts2 hvol2 t ht
      constructor
      · refine ⟨?_, ?_, ?_⟩
        · intro u hu c hc
          rcases List.mem_cons.mp hu with rfl | hut
          · exact hcells c hc
          · obtain ⟨h1, h2⟩ := hVR2.1 u hut c hc
            have hin : b.InBounds c :=
              (b.pushed_InBounds p (b.posToTry p) hcan c).mp h1
            refine ⟨hin, fun hocc => h2 ?_⟩
            exact (b.pushed_Occ p (b.posToTry p) hb hcan hid c hin).mpr
              (Or.inr hocc)
        · rw [List.pairwise_cons]
          refine ⟨?_, hVR2.2.1⟩
          intro u hut c hc hcu
          have hcin : b.InBounds c := (hcells c hc).1
          have hocc2 : (b.tryPushPieceTo p (b.posToTry p)).2.Occ c :=
            (b.pushed_Occ p (b.posToTry p) hb hcan hid c hcin).mpr (Or.inl hc)
          exact (hVR2.1 u hut c hcu).2 hocc2
        · intro c hc hocc
          by_cases hcp : c ∈ cellsOf p (b.posToTry p)
          · exact ⟨_, List.mem_cons_self _ t, hcp⟩
          · have hin2 : (b.tryPushPieceTo p (b.posToTry p)).2.InBounds c :=
              (b.pushed_InBounds p (b.posToTry p) hcan c).mpr hc
            have hocc2 : ¬ (b.tryPushPieceTo p (b.posToTry p)).2.Occ c := by
              rw [b.pushed_Occ p (b.posToTry p) hb hcan hid c hc]
              tauto
            obtain ⟨u, hu, hcu⟩ := hVR2.2.2 c hin2 hocc2
            exact ⟨u, List.mem_cons_of_mem _ hu, hcu⟩
      · constructor
        · have hlp := perm_getD_cons_eraseIdx (0, ([] : List Piece)) l i hi
          exact (List.Perm.cons (l.getD i (0, [])).1 hMS2.1).trans
            (hlp.map Prod.fst).symm
        · intro u hu
          rcases List.mem_cons.mp hu with rfl | hut
          · exact ⟨l.getD i (0, []), hsl, rfl, hp⟩
          · obtain ⟨s', hs', h1, h2⟩ := hMS2.2 u hut
            exact ⟨s', List.mem_of_mem_eraseIdx hs', h1, h2⟩

/-- An anchor whose translate of the first point is the empty cell is the
anchor the code tries. -/
theorem posToTry_eq (b : Box) (p : Piece) (pos : Position)
    (h : pos.trans (p.points.headD ⟨0, 0, 0⟩) = b.findFirstEmptyCell) :
    b.posToTry p = pos := by
  have h2 := posToTry_trans_head b p
  rw [← h] at h2
  cases hbp : b.posToTry p
  rw [hbp] at h2
  cases pos
  simp only [Position.trans, Position.mk.injEq] at h2
  simp only [Position.mk.injEq]
  omega

/-- Completeness and uniqueness of the anchor optimization: every exact
tiling of the box's free cells that draws one piece per tagged set is
found by the instrumented search, and recorded by exactly one path (up to
the order of the placements, which the path fixes). -/
theorem searchSteps_complete :
    ∀ (fuel : Nat) (l : List (Nat × List Piece)) (b : Box)
      (rest : List SearchStep),
      l.length ≤ fuel → b.DLen → WFSets l →
      ValidRest b rest → MatchesSets l rest →
      ∃ path, (path ∈ searchStepsGo fuel l b ∧ path.Perm rest) ∧
        ∀ path2, path2 ∈ searchStepsGo fuel l b → path2.Perm rest →
          path2 = path := by
  have hsymm : ∀ {x y : SearchStep}, stepDisjoint x y → stepDisjoint y x :=
    fun h => stepDisjoint_symm h
  intro fuel
  induction fuel with
  | zero =>
    intro l b rest hfuel hb hwf hVR hMS
    have hl : l = [] := List.length_eq_zero.mp (by omega)
    subst hl
    have hr : rest = [] := List.map_eq_nil_iff.mp hMS.1.eq_nil
    subst hr
    refine ⟨[], ⟨by simp [searchStepsGo], List.Perm.refl []⟩, ?_⟩
    intro path2 hmem2 _
    simpa [searchStepsGo] using hmem2
  | succ fuel ih =>
    intro l b rest hfuel hb hwf hVR hMS
    by_cases hl : l = []
    · subst hl
      have hr : rest = [] := List.map_eq_nil_iff.mp hMS.1.eq_nil
      subst hr
      refine ⟨[], ⟨by simp [searchStepsGo], List.Perm.refl []⟩, ?_⟩
      intro path2 hmem2 _
      simpa [searchStepsGo] using hmem2
    · have hrne : rest ≠ [] := by
        intro h
        subst h
        exact hl (List.map_eq_nil_iff.mp (List.Perm.eq_nil hMS.1.symm))
      obtain ⟨st0, hst0⟩ := List.exists_mem_of_ne_nil rest hrne
      obtain ⟨s0, hs0, hstag0, hmem0⟩ := hMS.2 st0 hst0
      have hpts0 : st0.2.1.points ≠ [] := ((hwf.2 s0 hs0).2 _ hmem0).2.1
      obtain ⟨q00, hq00⟩ := List.exists_mem_of_ne_nil st0.2.1.points hpts0
      have hc0 : st0.2.2.trans q00 ∈ stepCells st0 := by
        show st0.2.2.trans q00 ∈ cellsOf st0.2.1 st0.2.2
        rw [cellsOf_eq_map]
        exact List.mem_map_of_mem _ hq00
      obtain ⟨hc0in, hc0free⟩ := hVR.1 st0 hst0 _ hc0
      obtain ⟨hecIn, hecFree, hecMin⟩ := b.findEmpty_spec _ hc0in hc0free
      obtain ⟨stm, hstar, hecstar⟩ :=
        hVR.2.2 b.findFirstEmptyCell hecIn hecFree
      have hcover_uniq : ∀ u ∈ rest, b.findFirstEmptyCell ∈ stepCells u →
          u = stm := by
        intro u hu hecu
        by_contra hne
        exact List.Pairwise.forall stepDisjoint_symm hVR.2.1
          hu hstar hne b.findFirstEmptyCell hecu hecstar
      obtain ⟨tg, p, ps⟩ := stm
      obtain ⟨re, hpermrest⟩ :
          ∃ re, rest.Perm ((⟨tg, p, ps⟩ : SearchStep) :: re) := by
        obtain ⟨u1, u2, hsplit⟩ := List.append_of_mem hstar
        exact ⟨u1 ++ u2, by rw [hsplit]; exact List.perm_middle⟩
      have hre_sub : ∀ u ∈ re, u ∈ rest := fun u hu =>
        hpermrest.mem_iff.mpr (List.mem_cons_of_mem _ hu)
      have hre_of_ne : ∀ u ∈ rest, u ≠ ⟨tg, p, ps⟩ → u ∈ re := by
        intro u hu hne
        rcases List.mem_cons.mp (hpermrest.mem_iff.mp hu) with h | h
        · exact absurd h hne
        · exact h
      obtain ⟨s, hsmem, hstag, hspiece⟩ := hMS.2 ⟨tg, p, ps⟩ hstar
      obtain ⟨i, hi, hieq⟩ := List.getElem_of_mem hsmem
      have hgetD : l.getD i (0, []) = s := by
        rw [List.getD_eq_getElem l _ hi]; exact hieq
      obtain ⟨hid, hpne, hpnd, hpsort⟩ := (hwf.2 s hsmem).2 p hspiece
      have hcellsfree : ∀ c ∈ cellsOf p ps, b.InBounds c ∧ ¬ b.Occ c :=
        fun c hc => hVR.1 ⟨tg, p, ps⟩ hstar c hc
      have hq0mem : p.points.headD ⟨0, 0, 0⟩ ∈ p.points := by
        cases hpp : p.points with
        | nil => exact absurd hpp hpne
        | cons a t => simp
      obtain ⟨q, hq, heq⟩ : ∃ q ∈ p.points,
          ps.trans q = b.findFirstEmptyCell := by
        have h9 : b.findFirstEmptyCell ∈ p.points.map ps.trans := hecstar
        rw [List.mem_map] at h9
        obtain ⟨q, hq, he⟩ := h9
        exact ⟨q, hq, he⟩
      have hfree0 := hcellsfree (ps.trans (p.points.headD ⟨0, 0, 0⟩))
        (by rw [cellsOf_eq_map]; exact List.mem_map_of_mem _ hq0mem)
      have hscan := trans_le_scan ps (p.points.headD ⟨0, 0, 0⟩) q
        (head_le_of_sorted p.points hpne hpsort q hq)
      have heq0 : ps.trans (p.points.headD ⟨0, 0, 0⟩)
          = b.findFirstEmptyCell := by
        rcases hscan with hlt | he
        · exfalso
          rw [heq] at hlt
          exact hfree0.2 (hecMin _ hfree0.1 hlt)
        · rw [he, heq]
      have hanch : b.posToTry p = ps := posToTry_eq b p ps heq0
      have htag : (l.getD i (0, [])).1 = tg := by rw [hgetD]; exact hstag
      have hstT : (((l.getD i (0, [])).1, p, b.posToTry p) : SearchStep)
          = ⟨tg, p, ps⟩ := by
        rw [htag, hanch]
      have hpmem : p ∈ (l.getD i (0, [])).2 := by rw [hgetD]; exact hspiece
      have hcan : b.canPush p (b.posToTry p) = true := by
        rw [hanch]
        exact (b.canPush_iff p ps).mpr hcellsfree
      have hres : (b.tryPushPieceTo p (b.posToTry p)).1 = true := by
        rw [b.tryPush_fst]; exact hcan
      have hb2 : (b.tryPushPieceTo p (b.posToTry p)).2.DLen :=
        b.pushed_DLen p (b.posToTry p) hb hcan
      have hwf2 : WFSets (l.eraseIdx i) := WFSets_eraseIdx l i hwf
      have hfl : (l.eraseIdx i).length ≤ fuel := by
        rw [List.length_eraseIdx]
        simp only [hi, if_pos]
        omega
      have hndrest : (rest.map Prod.fst).Nodup := (hMS.1.nodup_iff).mpr hwf.1
      have htg_not : tg ∉ re.map Prod.fst := by
        have h10 : (((⟨tg, p, ps⟩ : SearchStep) :: re).map Prod.fst).Nodup :=
          ((hpermrest.map Prod.fst).nodup_iff).mp hndrest
        rw [List.map_cons, List.nodup_cons] at h10
        exact h10.1
      have hpw2 := (List.Perm.pairwise_iff hsymm hpermrest).mp hVR.2.1
      rw [List.pairwise_cons] at hpw2
      have hav : ∀ u ∈ re, ∀ c ∈ stepCells u,
          c ∉ cellsOf p (b.posToTry p) := by
        intro u hu c hc
        rw [hanch]
        exact (stepDisjoint_symm (hpw2.1 u hu)) c hc
      have hVR2 : ValidRest (b.tryPushPieceTo p (b.posToTry p)).2 re := by
        refine ⟨?_, hpw2.2, ?_⟩
        · intro u hu c hc
          obtain ⟨h1, h2⟩ := hVR.1 u (hre_sub u hu) c hc
          refine ⟨(b.pushed_InBounds p (b.posToTry p) hcan c).mpr h1, ?_⟩
          rw [b.pushed_Occ p (b.posToTry p) hb hcan hid c h1]
          push_neg
          exact ⟨hav u hu c hc, h2⟩
        · intro c hcin hcocc
          have hcb : b.InBounds c :=
            (b.pushed_InBounds p (b.posToTry p) hcan c).mp hcin
          have hnotin : c ∉ cellsOf p (b.posToTry p) ∧ ¬ b.Occ c := by
            rw [b.pushed_Occ p (b.posToTry p) hb hcan hid c hcb] at hcocc
            push_neg at hcocc
            exact hcocc
          obtain ⟨u, hu, hcu⟩ := hVR.2.2 c hcb hnotin.2
          have hune : u ≠ ⟨tg, p, ps⟩ := by
            intro h
            subst h
            exact hnotin.1 (by rw [hanch]; exact hcu)
          exact ⟨u, hre_of_ne u hu hune, hcu⟩
      have hMS2 : MatchesSets (l.eraseIdx i) re := by
        constructor
        · have hlp := perm_getD_cons_eraseIdx
            ((0 : Nat), ([] : List Piece)) l i hi
          have h4 : (l.map Prod.fst).Perm
              (tg :: (l.eraseIdx i).map Prod.fst) := by
            have h5 := hlp.map Prod.fst
            rw [List.map_cons, htag] at h5
            exact h5
          have h6 : (((⟨tg, p, ps⟩ : SearchStep) :: re).map Prod.fst).Perm
              (tg :: (l.eraseIdx i).map Prod.fst) :=
            ((hpermrest.map Prod.fst).symm.trans hMS.1).trans h4
          rw [List.map_cons] at h6
          exact List.Perm.cons_inv h6
        · intro u hu
          obtain ⟨s', hs', h1, h2⟩ := hMS.2 u (hre_sub u hu)
          have hune : s' ≠ l.getD i s' := by
            intro h
            have hgd : l.getD i s' = s := by
              rw [List.getD_eq_getElem l _ hi]; exact hieq
            rw [h, hgd] at h1
            have hu1 : u.1 = tg := by rw [← h1]; exact hstag
            refine htg_not ?_
            rw [← hu1]
            exact List.mem_map_of_mem Prod.fst hu
          exact ⟨s', mem_eraseIdx_of_ne l i hi s' hs' hune, h1, h2⟩
      obtain ⟨path', ⟨hmem', hperm'⟩, huniq'⟩ := ih (l.eraseIdx i)
        (b.tryPushPieceTo p (b.posToTry p)).2 re
        hfl hb2 hwf2 hVR2 hMS2
      refine ⟨((l.getD i (0, [])).1, p, b.posToTry p) :: path', ⟨?_, ?_⟩, ?_⟩
      · exact (mem_searchStepsGo_succ fuel l b hl _).mpr
          ⟨i, hi, p, hpmem, hres, path', hmem', rfl⟩
      · have hp1 : ((((l.getD i (0, [])).1, p, b.posToTry p) : SearchStep)
            :: path').Perm ((⟨tg, p, ps⟩ : SearchStep) :: re) := by
          rw [hstT]
          exact List.Perm.cons _ hperm'
        exact hp1.trans hpermrest.symm
      · intro path2 hmem2 hperm2
        obtain ⟨j, hj, p2, hp2, hres2, t2, ht2, rfl⟩ :=
          (mem_searchStepsGo_succ fuel l b hl path2).mp hmem2
        have hst2mem : (((l.getD j (0, [])).1, p2, b.posToTry p2) : SearchStep)
            ∈ rest :=
          hperm2.mem_iff.mp (List.mem_cons_self _ t2)
        have hsl2 : l.getD j (0, []) ∈ l := by
          rw [List.getD_eq_getElem l _ hj]
          exact List.getElem_mem hj
        have hp2ne : p2.points ≠ [] := ((hwf.2 _ hsl2).2 p2 hp2).2.1
        have hq02 : p2.points.headD ⟨0, 0, 0⟩ ∈ p2.points := by
          cases hpp : p2.points with
          | nil => exact absurd hpp hp2ne
          | cons a t => simp
        have hec2 : b.findFirstEmptyCell ∈
            stepCells ((l.getD j (0, [])).1, p2, b.posToTry p2) := by
          show b.findFirstEmptyCell ∈ cellsOf p2 (b.posToTry p2)
          rw [cellsOf_eq_map, ← posToTry_trans_head b p2]
          exact List.mem_map_of_mem _ hq02
        have hst2 := hcover_uniq _ hst2mem hec2
        have hj1 : (l.getD j (0, [])).1 = (l.getD i (0, [])).1 := by
          have h8 : (l.getD j (0, [])).1 = tg := congrArg Prod.fst hst2
          rw [h8, htag]
        have hji : j = i := by
          have hjm : j < (l.map Prod.fst).length := by
            rw [List.length_map]; exact hj
          have him : i < (l.map Prod.fst).length := by
            rw [List.length_map]; exact hi
          have e1 : (l.map Prod.fst)[j] = (l.map Prod.fst)[i] := by
            rw [List.getElem_map, List.getElem_map,
              ← List.getD_eq_getElem l ((0 : Nat), ([] : List Piece)) hj,
              ← List.getD_eq_getElem l ((0 : Nat), ([] : List Piece)) hi]
            exact hj1
          exact (List.Nodup.getElem_inj_iff hwf.1).mp e1
        subst hji
        have hp2p : p2 = p := congrArg (fun x : SearchStep => x.2.1) hst2
        subst hp2p
        have ht2perm : t2.Perm re := by
          apply List.Perm.cons_inv (a := (⟨tg, p2, ps⟩ : SearchStep))
          have h7 : ((⟨tg, p2, ps⟩ : SearchStep) :: t2).Perm rest := by
            rw [← hst2]
            exact hperm2
          exact h7.trans hpermrest
        rw [huniq' t2 ht2 ht2perm]

instance : ∀ l : List (Nat × List Piece), Decidable (WFSets l) := fun l => by
  unfold WFSets; infer_instance

instance : ∀ (l : List (Nat × List Piece)) (cs : List Nat),
    Decidable (TaggedSized l cs) := fun l cs => by
  unfold TaggedSized; infer_instance

/-- Claim C2: for every box and list of well-formed orientation sets whose
total cell count equals the box volume, searchNextCellPiece - which tries,
for each orientation, only the single anchor "empty cell minus the first
point of the orientation's sorted canonical point sequence" - records
exactly the complete tilings: the boxes it records are the replays of the
instrumented search's choice paths, every recorded path is an exact
tiling drawing one piece per set, and every exact tiling is recorded by
exactly one path. -/
theorem claim_C2 (X Y Z : Int) (l : List (List Piece)) (cs : List Nat)
    (hwf : WFSets (enumSets l)) (hsz : TaggedSized (enumSets l) cs)
    (hvol : cs.sum = (Box.make X Y Z).vol) :
    (searchNextCellPiece l (Box.make X Y Z)
        = (searchSteps (enumSets l) (Box.make X Y Z)).map
            (pushSteps (Box.make X Y Z))) ∧
    (∀ path ∈ searchSteps (enumSets l) (Box.make X Y Z),
        ValidRest (Box.make X Y Z) path ∧ MatchesSets (enumSets l) path) ∧
    (∀ rest, ValidRest (Box.make X Y Z) rest →
        MatchesSets (enumSets l) rest →
        ∃! path, path ∈ searchSteps (enumSets l) (Box.make X Y Z) ∧
          path.Perm rest) := by
  refine ⟨searchNextCellPiece_eq_steps l (Box.make X Y Z), ?_, ?_⟩
  · intro path hpath
    exact searchSteps_sound (enumSets l).length (enumSets l) (Box.make X Y Z)
      cs (le_refl _) (Box.make_DLen X Y Z) hwf hsz
      (by rw [countOcc_make]; omega) path hpath
  · intro rest hVR hMS
    obtain ⟨path, ⟨hmem, hperm⟩, huniq⟩ :=
      searchSteps_complete (enumSets l).length (enumSets l) (Box.make X Y Z)
        rest (le_refl _) (Box.make_DLen X Y Z) hwf hVR hMS
    exact ⟨path, ⟨hmem, hperm⟩, fun p2 h2 => huniq p2 h2.1 h2.2⟩

/-- Witness for claim C2 at a concrete input: the 1 by 1 by 1 box with the
single one-cell piece, where the recorded boxes are the replays of the
instrumented search's paths. -/
theorem claim_C2_witness :
    searchNextCellPiece [[oneCellPiece]] (Box.make 1 1 1)
      = (searchSteps (enumSets [[oneCellPiece]]) (Box.make 1 1 1)).map
          (pushSteps (Box.make 1 1 1)) :=
  (claim_C2 1 1 1 [[oneCellPiece]] [1] (by decide) (by decide) (by decide)).1
